import Mathlib

/-!
# ja2romaji: katakana to romaji slugs

A verification development of the Go package `romaji` (`romaji/converter.go`,
`romaji/kana_table.go`).

Go strings are modelled as sequences of code points (`List Char`): `kanaToRomaji` works on
`[]rune(kana)` and `normalize` ranges over the runes of its argument. The two places where
the source counts bytes (`len(slug)` and `slug[:c.maxLength]`) are modelled on the UTF-8
encoding of the slug (`goBytes`), so the slug returned by `Convert` is a byte sequence.
Functions of the Go standard library are modelled after their documentation; the Unicode
tables they consult outside ASCII are a parameter (`UnicodeTables`). A panic is `none`.
-/

namespace Romaji

/-! ## kana_table.go -/

/-- One entry of the Go map literal: key and value as code point sequences. -/
def kv (k v : String) : List Char × List Char := (k.data, v.data)

def kanaToRomajiTable : List (List Char × List Char) := [
  -- 清音 (Seion - Unvoiced sounds)
  kv "ア" "a", kv "イ" "i", kv "ウ" "u", kv "エ" "e", kv "オ" "o",
  kv "カ" "ka", kv "キ" "ki", kv "ク" "ku", kv "ケ" "ke", kv "コ" "ko",
  kv "サ" "sa", kv "シ" "shi", kv "ス" "su", kv "セ" "se", kv "ソ" "so",
  kv "タ" "ta", kv "チ" "chi", kv "ツ" "tsu", kv "テ" "te", kv "ト" "to",
  kv "ナ" "na", kv "ニ" "ni", kv "ヌ" "nu", kv "ネ" "ne", kv "ノ" "no",
  kv "ハ" "ha", kv "ヒ" "hi", kv "フ" "fu", kv "ヘ" "he", kv "ホ" "ho",
  kv "マ" "ma", kv "ミ" "mi", kv "ム" "mu", kv "メ" "me", kv "モ" "mo",
  kv "ヤ" "ya", kv "ユ" "yu", kv "ヨ" "yo",
  kv "ラ" "ra", kv "リ" "ri", kv "ル" "ru", kv "レ" "re", kv "ロ" "ro",
  kv "ワ" "wa", kv "ヲ" "wo", kv "ン" "n",
  -- 濁音 (Dakuon - Voiced sounds)
  kv "ガ" "ga", kv "ギ" "gi", kv "グ" "gu", kv "ゲ" "ge", kv "ゴ" "go",
  kv "ザ" "za", kv "ジ" "ji", kv "ズ" "zu", kv "ゼ" "ze", kv "ゾ" "zo",
  kv "ダ" "da", kv "ヂ" "ji", kv "ヅ" "zu", kv "デ" "de", kv "ド" "do",
  kv "バ" "ba", kv "ビ" "bi", kv "ブ" "bu", kv "ベ" "be", kv "ボ" "bo",
  -- 半濁音 (Handakuon - Semi-voiced sounds)
  kv "パ" "pa", kv "ピ" "pi", kv "プ" "pu", kv "ペ" "pe", kv "ポ" "po",
  -- 拗音 (Yōon - Palatalized sounds) - K-series
  kv "キャ" "kya", kv "キュ" "kyu", kv "キョ" "kyo",
  kv "ギャ" "gya", kv "ギュ" "gyu", kv "ギョ" "gyo",
  -- S-series
  kv "シャ" "sha", kv "シュ" "shu", kv "ショ" "sho",
  kv "ジャ" "ja", kv "ジュ" "ju", kv "ジョ" "jo",
  -- T-series
  kv "チャ" "cha", kv "チュ" "chu", kv "チョ" "cho",
  -- N-series
  kv "ニャ" "nya", kv "ニュ" "nyu", kv "ニョ" "nyo",
  -- H-series
  kv "ヒャ" "hya", kv "ヒュ" "hyu", kv "ヒョ" "hyo",
  kv "ビャ" "bya", kv "ビュ" "byu", kv "ビョ" "byo",
  kv "ピャ" "pya", kv "ピュ" "pyu", kv "ピョ" "pyo",
  -- M-series
  kv "ミャ" "mya", kv "ミュ" "myu", kv "ミョ" "myo",
  -- R-series
  kv "リャ" "rya", kv "リュ" "ryu", kv "リョ" "ryo",
  -- Additional palatalized combinations
  kv "ファ" "fa", kv "フィ" "fi", kv "フェ" "fe", kv "フォ" "fo",
  kv "ウィ" "wi", kv "ウェ" "we", kv "ウォ" "wo",
  kv "ヴァ" "va", kv "ヴィ" "vi", kv "ヴ" "vu", kv "ヴェ" "ve", kv "ヴォ" "vo",
  kv "ティ" "ti", kv "ディ" "di",
  kv "トゥ" "tu", kv "ドゥ" "du",
  kv "ツァ" "tsa", kv "ツィ" "tsi", kv "ツェ" "tse", kv "ツォ" "tso" ]


/-! ## Standard library: package strings, package regexp -/

/-- The Unicode tables of the Go standard library, used for code points outside ASCII only:
`unicode.ToLower`, `unicode.IsLetter` and `unicode.IsDigit`. -/
structure UnicodeTables where
  toLower : Char → Char
  isLetter : Char → Bool
  isDigit : Char → Bool

/-- Go's `unicode.ToLower`: ASCII is handled without the tables. -/
def runeToLower (U : UnicodeTables) (r : Char) : Char :=
  if r.toNat < 128 then r.toLower else U.toLower r

/-- Go's `strings.ToLower`. -/
def stringsToLower (U : UnicodeTables) (s : List Char) : List Char :=
  s.map (runeToLower U)

/-- Go's `strings.Join`. -/
def stringsJoin (elems : List (List Char)) (sep : List Char) : List Char :=
  sep.intercalate elems

/-- Go's `strings.Trim`: all leading and trailing code points contained in `cutset` are
removed. -/
def stringsTrim (s cutset : List Char) : List Char :=
  (s.dropWhile (fun r => decide (r ∈ cutset))).rdropWhile (fun r => decide (r ∈ cutset))

/-- Go's `strings.TrimSuffix`, on bytes. -/
def stringsTrimSuffix (s suffix : List Nat) : List Nat :=
  if suffix.isSuffixOf s then s.take (s.length - suffix.length) else s

/-- The compiled pattern `regexp.QuoteMeta(separator) + "+"`: every code point of the
separator is a literal, and the repetition operator binds to the last one. -/
structure SepPattern where
  literal : List Char
  repeated : Char

/-- The call `regexp.MustCompile(regexp.QuoteMeta(separator) + "+")`. For the empty separator
the pattern is `+`, a repetition operator without argument: `MustCompile` panics. The size
limits of package regexp are not modelled. -/
def mustCompileSep (separator : List Char) : Option SepPattern :=
  match separator.getLast? with
  | none => none
  | some r => some ⟨separator.dropLast, r⟩

/-- The code points left after the literal `lit` at the start of `s`, if `s` starts with it. -/
def stripLiteral : List Char → List Char → Option (List Char)
  | [], s => some s
  | _ :: _, [] => none
  | p :: lit, r :: s => if p = r then stripLiteral lit s else none

/-- Length of the (greedy) match of the pattern at the start of `s`, if there is one. -/
def matchLength (re : SepPattern) (s : List Char) : Option Nat :=
  match stripLiteral re.literal s with
  | some (r :: tail) =>
    if r = re.repeated then
      some (re.literal.length + 1 + (tail.takeWhile (fun x => decide (x = re.repeated))).length)
    else none
  | _ => none

/-- The code points that may form a group name in a replacement template. -/
def isNameRune (U : UnicodeTables) (r : Char) : Bool :=
  if r.toNat < 128 then
    ('a' ≤ r && r ≤ 'z') || ('A' ≤ r && r ≤ 'Z') || ('0' ≤ r && r ≤ '9') || r = '_'
  else U.isLetter r || U.isDigit r

/-- The group number denoted by a name, `-1` if it is not a number (package regexp,
function `extract`). -/
def groupNumber (name : List Char) : Int :=
  let num := name.foldl (fun (num : Int) r =>
    if num < 0 then -1
    else if r < '0' ∨ '9' < r ∨ num ≥ 100000000 then -1
    else num * 10 + ((r.toNat : Int) - 48)) 0
  if name.head? = some '0' ∧ name.length > 1 then -1 else num

/-- Package regexp, function `extract`: the group number of the leading `name` or `{name}`
of `str` (the text after a `$`), and the number of code points the reference takes. -/
def extract (U : UnicodeTables) (str : List Char) : Option (Int × Nat) :=
  match str with
  | [] => none
  | r :: tail =>
    let brace : Bool := r = '{'
    let body := if brace then tail else str
    let name := body.takeWhile (isNameRune U)
    if name = [] then none
    else if brace then
      (match body.dropWhile (isNameRune U) with
       | '}' :: _ => some (groupNumber name, name.length + 2)
       | _ => none)
    else some (groupNumber name, name.length)

/-- Package regexp, `expand`, for a pattern without groups: `$$` is a dollar sign, `$0` and
`${0}` are the matched text `m`, every other reference is empty, and a `$` that starts no
reference is kept. `skip` counts the template code points already consumed. -/
def expandLoop (U : UnicodeTables) (m : List Char) : Nat → List Char → List Char
  | _, [] => []
  | skip + 1, _ :: template => expandLoop U m skip template
  | 0, r :: template =>
    if r ≠ '$' then r :: expandLoop U m 0 template
    else
      match template with
      | '$' :: _ => '$' :: expandLoop U m 1 template
      | _ =>
        match extract U template with
        | none => '$' :: expandLoop U m 0 template
        | some (num, width) =>
          (if num = 0 then m else []) ++ expandLoop U m width template

/-- The loop of `ReplaceAllString`: the leftmost match is replaced by the expansion of the
template `repl`, and the search goes on after the match. `skip` counts the code points of
`src` that belong to the match just replaced. -/
def replaceAllLoop (U : UnicodeTables) (re : SepPattern) (repl : List Char) :
    Nat → List Char → List Char
  | _, [] => []
  | skip + 1, _ :: src => replaceAllLoop U re repl skip src
  | 0, r :: src =>
    match matchLength re (r :: src) with
    | some n => expandLoop U ((r :: src).take n) 0 repl ++ replaceAllLoop U re repl (n - 1) src
    | none => r :: replaceAllLoop U re repl 0 src

/-- Go's `(*Regexp).ReplaceAllString` for the separator pattern. -/
def replaceAllString (U : UnicodeTables) (re : SepPattern) (src repl : List Char) : List Char :=
  replaceAllLoop U re repl 0 src

/-- UTF-8 encoding of a code point. -/
def utf8EncodeRune (r : Char) : List Nat :=
  let v := r.toNat
  if v < 0x80 then [v]
  else if v < 0x800 then [0xC0 + v / 64, 0x80 + v % 64]
  else if v < 0x10000 then [0xE0 + v / 4096, 0x80 + v / 64 % 64, 0x80 + v % 64]
  else [0xF0 + v / 262144, 0x80 + v / 4096 % 64, 0x80 + v / 64 % 64, 0x80 + v % 64]

/-- The bytes of a Go string. -/
def goBytes (s : List Char) : List Nat :=
  s.flatMap utf8EncodeRune

/-! ## converter.go -/

/-- A token of the morphological analyzer: its surface form and its features. -/
structure Token where
  Surface : List Char
  Features : List (List Char)

structure Converter where
  tokenizer : List Char → List Token
  maxLength : Int
  separator : List Char
  useMorph : Bool

def WithMaxLength (length : Int) : Converter → Converter :=
  fun c => { c with maxLength := length }

def WithSeparator (sep : List Char) : Converter → Converter :=
  fun c => { c with separator := sep }

def WithMorphAnalysis (use : Bool) : Converter → Converter :=
  fun c => { c with useMorph := use }

/-- The constructor `NewConverter`, given the tokenizer that `tokenizer.New` returned. -/
def NewConverter (t : List Char → List Token) (opts : List (Converter → Converter)) :
    Converter :=
  opts.foldl (fun c opt => opt c)
    { tokenizer := t, maxLength := 50, separator := "-".data, useMorph := true }

def getReading (token : Token) : List Char :=
  match token.Features.get? 7 with
  | some reading => if reading ≠ "*".data then reading else token.Surface
  | none => token.Surface

/-- Map index expression `kanaToRomajiTable[key]` with the comma-ok result. -/
def tableGet (key : List Char) : Option (List Char) :=
  kanaToRomajiTable.lookup key

/-- The ASCII test of the fallback branch of `kanaToRomaji`. -/
def isAsciiAlnum (char : Char) : Bool :=
  ('a' ≤ char && char ≤ 'z') || ('A' ≤ char && char ≤ 'Z') || ('0' ≤ char && char ≤ '9')

/-- One iteration of the loop of `kanaToRomaji` at the code point `char`, with `rest` the
code points after it: the text written to the builder and the number of further code points
the iteration consumes (the `i += 2` and `i += 1` of the source). -/
def kanaStep (char : Char) (rest : List Char) : List Char × Nat :=
  if char = 'ッ' then
    match rest with
    | nextChar :: _ =>
      match tableGet [nextChar] with
      | some (b :: _) => ([b], 0)
      | _ => ([], 0)
    | [] => ([], 0)
  else if char = 'ー' then ([], 0)
  else if char = ' ' ∨ char = '　' then ([], 0)
  else
    match (match rest with
           | c2 :: c3 :: _ => tableGet [char, c2, c3]
           | _ => none) with
    | some romaji => (romaji, 2)
    | none =>
      match (match rest with
             | c2 :: _ => tableGet [char, c2]
             | [] => none) with
      | some romaji => (romaji, 1)
      | none =>
        match tableGet [char] with
        | some romaji => (romaji, 0)
        | none => (if isAsciiAlnum char then [char] else [], 0)

/-- The loop of `kanaToRomaji` on the code points from the cursor on; `skip` counts the code
points a previous multi-code-point match has already consumed. -/
def kanaLoop : Nat → List Char → List Char
  | _, [] => []
  | skip + 1, _ :: rest => kanaLoop skip rest
  | 0, char :: rest => (kanaStep char rest).1 ++ kanaLoop (kanaStep char rest).2 rest

def kanaToRomaji (kana : List Char) : List Char := kanaLoop 0 kana

def normalize (U : UnicodeTables) (separator s : List Char) : Option (List Char) :=
  -- Convert to lowercase
  let s := stringsToLower U s
  -- Replace multiple separators with single
  match mustCompileSep separator with
  | none => none
  | some re =>
    let s := replaceAllString U re s separator
    -- Remove characters that are not alphanumeric or separator
    let s := s.filter (fun r =>
      ('a' ≤ r && r ≤ 'z') || ('0' ≤ r && r ≤ '9') || decide ([r] = separator))
    -- Trim separators from start and end
    some (stringsTrim s separator)

/-- The loop of `convertWithMorph` over the tokens: the non-empty romaji of the non-empty
readings, in order. -/
def romajiParts : List Token → List (List Char)
  | [] => []
  | token :: tokens =>
    let reading := getReading token
    if reading = [] then romajiParts tokens
    else
      let romaji := kanaToRomaji reading
      if romaji ≠ [] then romaji :: romajiParts tokens else romajiParts tokens

def convertWithMorph (U : UnicodeTables) (c : Converter) (text : List Char) :
    Option (List Nat) :=
  let tokens := c.tokenizer text
  let parts := romajiParts tokens
  -- Join with separator and normalize
  let slug := stringsJoin parts c.separator
  match normalize U c.separator slug with
  | none => none
  | some slug =>
    let slug := goBytes slug
    -- Apply max length
    if c.maxLength > 0 ∧ (slug.length : Int) > c.maxLength then
      let slug := slug.take c.maxLength.toNat
      -- Remove trailing separator if cut in the middle
      some (stringsTrimSuffix slug (goBytes c.separator))
    else some slug

def convertDirect (U : UnicodeTables) (c : Converter) (text : List Char) :
    Option (List Nat) :=
  let romaji := kanaToRomaji text
  match normalize U c.separator romaji with
  | none => none
  | some slug =>
    let slug := goBytes slug
    if c.maxLength > 0 ∧ (slug.length : Int) > c.maxLength then
      some (slug.take c.maxLength.toNat)
    else some slug

def Convert (U : UnicodeTables) (c : Converter) (text : List Char) : Option (List Nat) :=
  if c.useMorph then convertWithMorph U c text else convertDirect U c text

/-- The value of the variable `slug` of `convertWithMorph` and of `convertDirect` after the
call of `normalize`, before the maximum length is applied. -/
def normalizedSlug (U : UnicodeTables) (c : Converter) (text : List Char) :
    Option (List Char) :=
  if c.useMorph then
    normalize U c.separator (stringsJoin (romajiParts (c.tokenizer text)) c.separator)
  else normalize U c.separator (kanaToRomaji text)

/-! ## Vocabulary of the specification -/

/-- The code points at which the scan of `kanaToRomaji` emits nothing and goes on: the
long-vowel mark, the ASCII space and the full-width space. -/
def isSkipped (m : Char) : Prop := m = 'ー' ∨ m = ' ' ∨ m = '　'

/-- Lowercase ASCII letters and digits, the characters of a slug besides the separator. -/
def isLowerAlnum (r : Char) : Bool :=
  ('a' ≤ r && r ≤ 'z') || ('0' ≤ r && r ≤ '9')

/-- A separator that is a single ASCII character other than a letter or digit. -/
def IsSepChar (sep : Char) : Prop :=
  sep.toNat < 128 ∧ isAsciiAlnum sep = false

instance decIsSepChar (sep : Char) : Decidable (IsSepChar sep) :=
  inferInstanceAs (Decidable (sep.toNat < 128 ∧ isAsciiAlnum sep = false))

/-- The slug invariants: only lowercase ASCII letters, digits and the separator, no separator
at the start or at the end, no two consecutive separators. -/
structure SlugShape (sep : Char) (slug : List Char) : Prop where
  chars : ∀ r ∈ slug, isLowerAlnum r = true ∨ r = sep
  head : slug.head? ≠ some sep
  last : slug.getLast? ≠ some sep
  single : slug.Chain' (fun a b => ¬(a = sep ∧ b = sep))

/-- The slug as runs: one or more non-empty runs of lowercase letters and digits with exactly
one separator between consecutive runs, or the empty string (no run). -/
def IsRuns (sep : Char) (slug : List Char) : Prop :=
  ∃ runs : List (List Char),
    (∀ run ∈ runs, run ≠ [] ∧ ∀ r ∈ run, isLowerAlnum r = true) ∧
    slug = [sep].intercalate runs

/-- The slug the specification describes for morphology mode before truncation: the
lowercased romaji of the readings, those with empty romaji left out, joined by the
separator. -/
def joinedRomaji (sep : Char) (readings : List (List Char)) : List Char :=
  [sep].intercalate
    ((readings.map (fun reading => (kanaToRomaji reading).map Char.toLower)).filter
      (fun fragment => decide (fragment ≠ [])))

/-- Whether a code point is the first code point of some key of the table. -/
def startsKey (c : Char) : Bool :=
  kanaToRomajiTable.any (fun e => e.1.head? == some c)

/-- Code points of the hiragana block, U+3041 to U+309F. -/
def isHiragana (r : Char) : Bool :=
  0x3041 ≤ r.toNat && r.toNat ≤ 0x309F

/-- The small katakana, which the table has only as second code point of a key. -/
def smallKatakana : List Char := ['ャ', 'ュ', 'ョ', 'ァ', 'ィ', 'ゥ', 'ェ', 'ォ']

/-- A token without features: its reading is its surface form. -/
def surfaceToken (surface : List Char) : Token :=
  { Surface := surface, Features := [] }

/-- The pipeline of morphology mode in the words of the specification, on a list of
readings: transliterate each reading, drop the empty fragments, join, normalize, truncate
and strip one trailing separator. -/
def sharedPipeline (U : UnicodeTables) (maxLength : Int) (separator : List Char)
    (readings : List (List Char)) : Option (List Nat) :=
  let fragments := (readings.map kanaToRomaji).filter (fun fragment => decide (fragment ≠ []))
  (normalize U separator (stringsJoin fragments separator)).map (fun slug =>
    if maxLength > 0 ∧ ((goBytes slug).length : Int) > maxLength then
      stringsTrimSuffix ((goBytes slug).take maxLength.toNat) (goBytes separator)
    else goBytes slug)

/-- A token of the IPA dictionary with the given surface form and reading: the reading is
feature 7 (and the pronunciation, feature 8). -/
def ipaToken (surface reading : String) : Token :=
  { Surface := surface.data,
    Features := ["*", "*", "*", "*", "*", "*", surface, reading, reading].map String.data }

/-- Tables without entries: outside ASCII lowercasing changes nothing and no code point is a
letter or a digit. -/
def asciiTables : UnicodeTables :=
  { toLower := fun r => r, isLetter := fun _ => false, isDigit := fun _ => false }

/-- A tokenizer that answers every text with the given tokens. -/
def fixedTokenizer (tokens : List Token) : List Char → List Token :=
  fun _ => tokens



/-! ## Facts about the table -/

theorem lookup_mem {α β : Type} [BEq α] [LawfulBEq α] (k : α) (v : β) :
    ∀ l : List (α × β), l.lookup k = some v → (k, v) ∈ l := by
  intro l
  induction l with
  | nil => intro h; simp [List.lookup] at h
  | cons e l ih =>
    obtain ⟨k', v'⟩ := e
    intro h
    by_cases hk : k == k'
    · simp [List.lookup, hk] at h
      have hk' : k = k' := by simpa using hk
      subst hk' h
      exact List.mem_cons_self _ _
    · simp [List.lookup, hk] at h
      exact List.mem_cons_of_mem _ (ih h)

theorem tableGet_mem {k v : List Char} (h : tableGet k = some v) :
    (k, v) ∈ kanaToRomajiTable :=
  lookup_mem k v _ h

set_option maxRecDepth 100000 in
theorem table_key_length : ∀ e ∈ kanaToRomajiTable, e.1.length = 1 ∨ e.1.length = 2 := by
  decide

set_option maxRecDepth 100000 in
theorem table_key_plain : ∀ e ∈ kanaToRomajiTable, ∀ r ∈ e.1,
    r ≠ 'ッ' ∧ r ≠ 'ー' ∧ r ≠ ' ' ∧ r ≠ '　' := by
  decide

set_option maxRecDepth 100000 in
theorem table_value_lower : ∀ e ∈ kanaToRomajiTable,
    e.2 ≠ [] ∧ ∀ r ∈ e.2, 'a' ≤ r ∧ r ≤ 'z' := by
  decide

theorem tableGet_three (a b c : Char) : tableGet [a, b, c] = none := by
  cases h : tableGet [a, b, c] with
  | none => rfl
  | some v =>
    have := table_key_length _ (tableGet_mem h)
    simp at this

theorem tableGet_plain {k v : List Char} (h : tableGet k = some v) :
    ∀ r ∈ k, r ≠ 'ッ' ∧ r ≠ 'ー' ∧ r ≠ ' ' ∧ r ≠ '　' :=
  table_key_plain _ (tableGet_mem h)

theorem tableGet_skipped_one {m : Char} (hm : isSkipped m) : tableGet [m] = none := by
  cases h : tableGet [m] with
  | none => rfl
  | some v =>
    have := tableGet_plain h m (by simp)
    rcases hm with rfl | rfl | rfl <;> simp at this

theorem tableGet_skipped_two {m : Char} (hm : isSkipped m) (c : Char) :
    tableGet [c, m] = none := by
  cases h : tableGet [c, m] with
  | none => rfl
  | some v =>
    have := tableGet_plain h m (by simp)
    rcases hm with rfl | rfl | rfl <;> simp at this

/-! ## The scan of `kanaToRomaji` -/

theorem kanaLoop_zero_cons (char : Char) (rest : List Char) :
    kanaLoop 0 (char :: rest) = (kanaStep char rest).1 ++ kanaLoop (kanaStep char rest).2 rest :=
  rfl

theorem kanaLoop_succ_cons (skip : Nat) (char : Char) (rest : List Char) :
    kanaLoop (skip + 1) (char :: rest) = kanaLoop skip rest :=
  rfl

theorem kanaLoop_nil (skip : Nat) : kanaLoop skip [] = [] := by
  cases skip <;> rfl

/-- The step at a two-code-point key. -/
theorem kanaStep_two {a b : Char} {v : List Char} (h : tableGet [a, b] = some v)
    (rest : List Char) : kanaStep a (b :: rest) = (v, 1) := by
  have hp := tableGet_plain h a (by simp)
  obtain ⟨h1, h2, h3, h4⟩ := hp
  unfold kanaStep
  cases rest with
  | nil => simp [h1, h2, h3, h4, h]
  | cons c rest => simp [h1, h2, h3, h4, h, tableGet_three]

/-- The step at a one-code-point key that starts no two-code-point key here. -/
theorem kanaStep_one {c : Char} {v : List Char} (h : tableGet [c] = some v)
    (rest : List Char) (hnext : ∀ d, rest.head? = some d → tableGet [c, d] = none) :
    kanaStep c rest = (v, 0) := by
  have hp := tableGet_plain h c (by simp)
  obtain ⟨h1, h2, h3, h4⟩ := hp
  unfold kanaStep
  match rest with
  | [] => simp [h1, h2, h3, h4, h]
  | [d] => simp [h1, h2, h3, h4, h, hnext d rfl]
  | d :: e :: rest => simp [h1, h2, h3, h4, h, hnext d rfl, tableGet_three]

theorem kanaStep_sokuon (rest : List Char) :
    kanaStep 'ッ' rest =
      ((((rest.head?).bind (fun n => tableGet [n])).getD []).take 1, 0) := by
  unfold kanaStep
  cases rest with
  | nil => simp
  | cons n rest =>
    simp only [if_true, List.head?_cons, Option.some_bind]
    cases h : tableGet [n] with
    | none => simp
    | some v => cases v <;> simp

theorem kanaStep_skipped {m : Char} (hm : isSkipped m) (rest : List Char) :
    kanaStep m rest = ([], 0) := by
  unfold kanaStep
  rcases hm with rfl | rfl | rfl <;> simp

theorem kanaStep_skip_le (c : Char) (rest : List Char) : (kanaStep c rest).2 ≤ rest.length := by
  unfold kanaStep
  match rest with
  | [] => split_ifs <;> (repeat' split) <;> simp_all
  | [d] => split_ifs <;> (repeat' split) <;> simp_all
  | d :: e :: rest =>
    simp only [tableGet_three]
    split_ifs <;> (repeat' split) <;> simp_all

theorem kanaStep_skipped_after {m : Char} (hm : isSkipped m) (c : Char) (a b : List Char) :
    kanaStep c (a ++ m :: b) = kanaStep c a := by
  unfold kanaStep
  match a with
  | [] => simp [tableGet_skipped_one hm, tableGet_skipped_two hm, tableGet_three]; cases b <;> simp [tableGet_three] 
  | [d] => simp [tableGet_three]
  | d :: e :: a => simp

theorem kanaLoop_skipped_split {m : Char} (hm : isSkipped m) (b : List Char) :
    ∀ (a : List Char) (skip : Nat), skip ≤ a.length →
      kanaLoop skip (a ++ m :: b) = kanaLoop skip a ++ kanaLoop 0 b := by
  intro a
  induction a with
  | nil =>
    intro skip h
    have h0 : skip = 0 := by simpa using h
    subst h0
    simp [kanaLoop_zero_cons, kanaStep_skipped hm, kanaLoop_nil]
  | cons c a ih =>
    intro skip h
    cases skip with
    | zero =>
      simp only [List.cons_append, kanaLoop_zero_cons, kanaStep_skipped_after hm,
        List.append_assoc]
      rw [ih _ (kanaStep_skip_le c a)]
    | succ skip =>
      simp only [List.cons_append, kanaLoop_succ_cons]
      exact ih skip (by simpa using h)


/-! ## Code points as numbers -/

theorem char_le_iff (a b : Char) : a ≤ b ↔ a.toNat ≤ b.toNat := by
  rw [Char.le_def]; exact Iff.rfl

theorem char_eq_iff (a b : Char) : a = b ↔ a.toNat = b.toNat := by
  constructor
  · intro h; rw [h]
  · intro h
    have := congrArg Char.ofNat h
    simpa [Char.ofNat_toNat] using this

theorem toNat_ofNat_small (n : Nat) (h : n < 0xd800) : (Char.ofNat n).toNat = n := by
  simp [Char.ofNat, Char.toNat, Char.ofNatAux, Nat.isValidChar, h, Nat.lt_of_lt_of_le h]
  rfl

theorem toLower_toNat (r : Char) :
    r.toLower.toNat = if 65 ≤ r.toNat ∧ r.toNat ≤ 90 then r.toNat + 32 else r.toNat := by
  unfold Char.toLower
  simp only [ge_iff_le]
  split_ifs with h
  · exact toNat_ofNat_small _ (by omega)
  · rfl

theorem isAsciiAlnum_iff (r : Char) :
    isAsciiAlnum r = true ↔
      (97 ≤ r.toNat ∧ r.toNat ≤ 122) ∨ (65 ≤ r.toNat ∧ r.toNat ≤ 90) ∨
        (48 ≤ r.toNat ∧ r.toNat ≤ 57) := by
  simp [isAsciiAlnum, char_le_iff, or_assoc]

theorem isLowerAlnum_iff (r : Char) :
    isLowerAlnum r = true ↔
      (97 ≤ r.toNat ∧ r.toNat ≤ 122) ∨ (48 ≤ r.toNat ∧ r.toNat ≤ 57) := by
  simp [isLowerAlnum, char_le_iff]

theorem isLowerAlnum_ascii {r : Char} (h : isLowerAlnum r = true) : r.toNat < 128 := by
  rw [isLowerAlnum_iff] at h; omega

theorem isLowerAlnum_ne_sep {sep r : Char} (hs : IsSepChar sep) (h : isLowerAlnum r = true) :
    r ≠ sep := by
  rintro rfl
  have h2 := hs.2
  rw [isLowerAlnum_iff] at h
  rw [Bool.eq_false_iff, ne_eq, isAsciiAlnum_iff] at h2
  omega

theorem isAsciiAlnum_ne_sep {sep r : Char} (hs : IsSepChar sep) (h : isAsciiAlnum r = true) :
    r ≠ sep := by
  rintro rfl
  simp [hs.2] at h

theorem runeToLower_alnum (U : UnicodeTables) {r : Char} (h : isAsciiAlnum r = true) :
    runeToLower U r = r.toLower ∧ isLowerAlnum r.toLower = true := by
  rw [isAsciiAlnum_iff] at h
  constructor
  · unfold runeToLower; rw [if_pos (by omega)]
  · rw [isLowerAlnum_iff, toLower_toNat]; split_ifs <;> omega

theorem runeToLower_lower (U : UnicodeTables) {r : Char} (h : isLowerAlnum r = true) :
    runeToLower U r = r := by
  rw [isLowerAlnum_iff] at h
  unfold runeToLower
  rw [if_pos (by omega), char_eq_iff, toLower_toNat, if_neg (by omega)]

theorem runeToLower_sep (U : UnicodeTables) {sep : Char} (hs : IsSepChar sep) :
    runeToLower U sep = sep := by
  obtain ⟨h1, h2⟩ := hs
  rw [Bool.eq_false_iff, ne_eq, isAsciiAlnum_iff] at h2
  unfold runeToLower
  rw [if_pos h1, char_eq_iff, toLower_toNat, if_neg (by omega)]

theorem toLower_lower {r : Char} (h : isLowerAlnum r = true) : r.toLower = r := by
  rw [isLowerAlnum_iff] at h
  rw [char_eq_iff, toLower_toNat, if_neg (by omega)]

/-! ## Normalization of a string that has the slug shape -/

theorem expandLoop_single (U : UnicodeTables) (m : List Char) (c : Char) :
    expandLoop U m 0 [c] = [c] := by
  by_cases h : c = '$'
  · subst h; simp [expandLoop, extract]
  · simp [expandLoop, h]

theorem mustCompileSep_single (c : Char) : mustCompileSep [c] = some ⟨[], c⟩ := rfl

theorem matchLength_single (c r : Char) (src : List Char) :
    matchLength ⟨[], c⟩ (r :: src) =
      if r = c then some (1 + (src.takeWhile (fun x => decide (x = c))).length) else none := by
  simp [matchLength, stripLiteral]

theorem replaceAll_single_fixed (U : UnicodeTables) (c : Char) :
    ∀ s : List Char, s.Chain' (fun a b => ¬(a = c ∧ b = c)) →
      replaceAllLoop U ⟨[], c⟩ [c] 0 s = s := by
  intro s
  induction s with
  | nil => intro _; rfl
  | cons r src ih =>
    intro h
    have hsrc := ih (List.Chain'.tail h)
    rw [replaceAllLoop, matchLength_single]
    by_cases hr : r = c
    · subst hr
      have htw : src.takeWhile (fun x => decide (x = r)) = [] := by
        cases src with
        | nil => rfl
        | cons x t =>
          have hx : ¬(r = r ∧ x = r) := (List.chain'_cons.mp h).1
          have hx' : x ≠ r := fun e => hx ⟨rfl, e⟩
          simp [List.takeWhile, hx']
      simp [htw, expandLoop_single, hsrc]
    · simp [hr, hsrc]

theorem filter_shape {sep : Char} {s : List Char}
    (h : ∀ r ∈ s, isLowerAlnum r = true ∨ r = sep) :
    s.filter (fun r =>
      ('a' ≤ r && r ≤ 'z') || ('0' ≤ r && r ≤ '9') || decide ([r] = [sep])) = s := by
  rw [List.filter_eq_self]
  intro r hr
  rcases h r hr with h1 | h1
  · have : (('a' ≤ r && r ≤ 'z') || ('0' ≤ r && r ≤ '9')) = true := h1
    simp [this]
  · simp [h1]

theorem stringsTrim_fixed {sep : Char} {s : List Char}
    (hh : s.head? ≠ some sep) (hl : s.getLast? ≠ some sep) : stringsTrim s [sep] = s := by
  unfold stringsTrim
  have h1 : s.dropWhile (fun r => decide (r ∈ [sep])) = s := by
    cases s with
    | nil => rfl
    | cons x t =>
      have : x ≠ sep := by simpa using hh
      simp [List.dropWhile, this]
  rw [h1, List.rdropWhile_eq_self_iff]
  intro hne
  have : s.getLast hne ≠ sep := by
    intro e
    apply hl
    rw [List.getLast?_eq_getLast _ hne, e]
  simpa using this

/-- Normalization returns the lowercased string when that string has the slug shape. -/
theorem normalize_of_shape (U : UnicodeTables) {sep : Char} {s : List Char}
    (h : SlugShape sep (stringsToLower U s)) :
    normalize U [sep] s = some (stringsToLower U s) := by
  unfold normalize
  simp only [mustCompileSep_single, replaceAllString]
  rw [replaceAll_single_fixed U sep _ h.single, filter_shape h.chars,
    stringsTrim_fixed h.head h.last]

/-! ## The output of `kanaToRomaji` is alphanumeric -/

theorem kanaStep_alnum (c : Char) (rest : List Char) :
    ∀ r ∈ (kanaStep c rest).1, isAsciiAlnum r = true := by
  have hval : ∀ k v, tableGet k = some v → ∀ r ∈ v, isAsciiAlnum r = true := by
    intro k v h r hr
    have := (table_value_lower _ (tableGet_mem h)).2 r hr
    simp [isAsciiAlnum, this.1, this.2]
  have hnormal : ∀ r ∈ (match tableGet [c] with
        | some romaji => (romaji, 0)
        | none => (if isAsciiAlnum c = true then [c] else [], 0)).1,
      isAsciiAlnum r = true := by
    intro r hr
    cases h : tableGet [c] with
    | some v => rw [h] at hr; exact hval _ _ h r hr
    | none =>
      rw [h] at hr
      by_cases hc : isAsciiAlnum c = true
      · simp [hc] at hr; rw [hr]; exact hc
      · simp [hc] at hr
  by_cases hc : c = 'ッ'
  · subst hc
    rw [kanaStep_sokuon]
    intro r hr
    have hr' := List.mem_of_mem_take hr
    cases rest with
    | nil => simp at hr'
    | cons n rest =>
      simp only [List.head?_cons, Option.some_bind] at hr'
      cases h : tableGet [n] with
      | none => simp [h] at hr'
      | some v =>
        rw [h] at hr'
        exact hval _ _ h r hr'
  by_cases h2 : c = 'ー'
  · simp [kanaStep, h2]
  by_cases h3 : c = ' ' ∨ c = '　'
  · simp [kanaStep, hc, h2, h3]
  unfold kanaStep
  simp only [if_neg hc, if_neg h2, if_neg h3]
  match rest with
  | [] => exact hnormal
  | [d] =>
    simp only []
    cases h : tableGet [c, d] with
    | some v => exact hval _ _ h
    | none => exact hnormal
  | d :: e :: rest =>
    simp only [tableGet_three]
    cases h : tableGet [c, d] with
    | some v => exact hval _ _ h
    | none => exact hnormal

theorem kanaLoop_alnum : ∀ (s : List Char) (skip : Nat),
    ∀ r ∈ kanaLoop skip s, isAsciiAlnum r = true := by
  intro s
  induction s with
  | nil => intro skip r hr; simp [kanaLoop_nil] at hr
  | cons c s ih =>
    intro skip r hr
    cases skip with
    | zero =>
      rw [kanaLoop_zero_cons, List.mem_append] at hr
      rcases hr with hr | hr
      · exact kanaStep_alnum c s r hr
      · exact ih _ r hr
    | succ skip => exact ih skip r hr

theorem kanaToRomaji_alnum (kana : List Char) :
    ∀ r ∈ kanaToRomaji kana, isAsciiAlnum r = true :=
  kanaLoop_alnum kana 0

/-! ## The joined fragments -/

theorem romajiParts_eq (tokens : List Token) :
    romajiParts tokens =
      ((tokens.map getReading).map kanaToRomaji).filter (fun p => decide (p ≠ [])) := by
  induction tokens with
  | nil => rfl
  | cons t ts ih =>
    simp only [romajiParts, List.map_cons]
    by_cases h1 : getReading t = []
    · simp [h1, ih, kanaToRomaji, kanaLoop_nil]
    · by_cases h2 : kanaToRomaji (getReading t) = []
      · simp [h1, h2, ih]
      · simp [h1, h2, ih]

theorem romajiParts_alnum (tokens : List Token) :
    ∀ p ∈ romajiParts tokens, p ≠ [] ∧ ∀ r ∈ p, isAsciiAlnum r = true := by
  intro p hp
  rw [romajiParts_eq] at hp
  simp only [List.mem_filter, List.mem_map] at hp
  obtain ⟨⟨reading, _, rfl⟩, hne⟩ := hp
  exact ⟨by simpa using hne, kanaToRomaji_alnum _⟩

theorem intercalate_cons_cons (sep p q : List Char) (ps : List (List Char)) :
    sep.intercalate (p :: q :: ps) = p ++ sep ++ sep.intercalate (q :: ps) := by
  simp [List.intercalate, List.intersperse]

theorem intercalate_single (sep p : List Char) : sep.intercalate [p] = p := by
  simp [List.intercalate, List.intersperse]

theorem stringsToLower_alnum (U : UnicodeTables) {p : List Char}
    (h : ∀ r ∈ p, isAsciiAlnum r = true) : stringsToLower U p = p.map Char.toLower := by
  unfold stringsToLower
  apply List.map_congr_left
  intro r hr
  exact (runeToLower_alnum U (h r hr)).1

theorem stringsToLower_append (U : UnicodeTables) (a b : List Char) :
    stringsToLower U (a ++ b) = stringsToLower U a ++ stringsToLower U b := by
  simp [stringsToLower]

/-- Lowercasing the joined fragments lowercases each fragment. -/
theorem stringsToLower_join (U : UnicodeTables) {sep : Char} (hs : IsSepChar sep) :
    ∀ parts : List (List Char), (∀ p ∈ parts, ∀ r ∈ p, isAsciiAlnum r = true) →
      stringsToLower U ([sep].intercalate parts) =
        [sep].intercalate (parts.map (List.map Char.toLower)) := by
  intro parts
  induction parts with
  | nil => intro _; rfl
  | cons p ps ih =>
    intro h
    cases ps with
    | nil =>
      simp only [List.map_cons, List.map_nil, intercalate_single]
      exact stringsToLower_alnum U (h p (by simp))
    | cons q ps =>
      have ih' := ih (fun p' hp' => h p' (List.mem_cons_of_mem _ hp'))
      simp only [List.map_cons] at ih' ⊢
      rw [intercalate_cons_cons, intercalate_cons_cons, stringsToLower_append,
        stringsToLower_append, ih', stringsToLower_alnum U (h p (by simp))]
      simp [stringsToLower, runeToLower_sep U hs]

theorem chain_of_no_sep {sep : Char} : ∀ p : List Char, (∀ r ∈ p, r ≠ sep) →
    p.Chain' (fun a b => ¬(a = sep ∧ b = sep)) := by
  intro p
  induction p with
  | nil => intro _; exact List.chain'_nil
  | cons x t ih =>
    intro h
    apply List.Chain'.cons'
    · exact ih (fun r hr => h r (List.mem_cons_of_mem _ hr))
    · intro y _ hxy
      exact h x (by simp) hxy.1

/-- Non-empty runs of lowercase letters and digits, joined by one separator, have the slug
shape. -/
theorem slugShape_join {sep : Char} (hs : IsSepChar sep) :
    ∀ runs : List (List Char),
      (∀ run ∈ runs, run ≠ [] ∧ ∀ r ∈ run, isLowerAlnum r = true) →
      SlugShape sep ([sep].intercalate runs) := by
  intro runs
  induction runs with
  | nil =>
    intro _
    exact ⟨by simp [List.intercalate], by simp [List.intercalate], by simp [List.intercalate],
      by simp [List.intercalate]⟩
  | cons p ps ih =>
    intro h
    obtain ⟨hp, hpc⟩ := h p (by simp)
    have hpsep : ∀ r ∈ p, r ≠ sep := fun r hr => isLowerAlnum_ne_sep hs (hpc r hr)
    obtain ⟨x, t, rfl⟩ := List.exists_cons_of_ne_nil hp
    cases ps with
    | nil =>
      rw [intercalate_single]
      refine ⟨fun r hr => Or.inl (hpc r hr), ?_, ?_, chain_of_no_sep _ hpsep⟩
      · simpa using hpsep x (by simp)
      · intro e
        exact hpsep _ (List.mem_of_getLast?_eq_some e) rfl
    | cons q ps =>
      have ih' := ih (fun p' hp' => h p' (List.mem_cons_of_mem _ hp'))
      obtain ⟨hq, _⟩ := h q (by simp)
      obtain ⟨y, u, rfl⟩ := List.exists_cons_of_ne_nil hq
      have hne : [sep].intercalate ((y :: u) :: ps) ≠ [] := by
        cases ps with
        | nil => simp [intercalate_single]
        | cons q2 ps => simp [intercalate_cons_cons]
      rw [intercalate_cons_cons]
      refine ⟨?_, ?_, ?_, ?_⟩
      · intro r hr
        simp only [List.append_assoc, List.mem_append, List.mem_singleton] at hr
        rcases hr with hr | hr | hr
        · exact Or.inl (hpc r hr)
        · exact Or.inr hr
        · exact ih'.chars r hr
      · simpa using hpsep x (by simp)
      · rw [List.getLast?_append_of_ne_nil _ hne]
        exact ih'.last
      · rw [List.append_assoc, List.chain'_append]
        refine ⟨chain_of_no_sep _ hpsep, ?_, ?_⟩
        · rw [List.singleton_append, List.chain'_cons']
          refine ⟨?_, ih'.single⟩
          intro z hz hzz
          exact ih'.head (by rw [Option.mem_def.mp hz, hzz.2])
        · intro a ha b _ hab
          exact hpsep a (List.mem_of_mem_getLast? ha) hab.1

/-! ## Bytes of an ASCII string -/

theorem goBytes_ascii {s : List Char} (h : ∀ r ∈ s, r.toNat < 128) :
    goBytes s = s.map Char.toNat := by
  induction s with
  | nil => rfl
  | cons x t ih =>
    have hx : x.toNat < 128 := h x (by simp)
    have ht := ih (fun r hr => h r (List.mem_cons_of_mem _ hr))
    simp only [goBytes, List.flatMap_cons, List.map_cons] at ht ⊢
    rw [ht]
    simp [utf8EncodeRune, hx]

theorem slugShape_ascii {sep : Char} (hs : IsSepChar sep) {s : List Char}
    (h : ∀ r ∈ s, isLowerAlnum r = true ∨ r = sep) : ∀ r ∈ s, r.toNat < 128 := by
  intro r hr
  rcases h r hr with h1 | h1
  · exact isLowerAlnum_ascii h1
  · rw [h1]; exact hs.1

theorem goBytes_length {s : List Char} (h : ∀ r ∈ s, r.toNat < 128) :
    (goBytes s).length = s.length := by
  rw [goBytes_ascii h, List.length_map]

theorem goBytes_take {s : List Char} (h : ∀ r ∈ s, r.toNat < 128) (n : Nat) :
    (goBytes s).take n = goBytes (s.take n) := by
  rw [goBytes_ascii h, goBytes_ascii (fun r hr => h r (List.mem_of_mem_take hr)),
    List.map_take]

theorem stringsTrimSuffix_single (l : List Nat) (x : Nat) :
    stringsTrimSuffix l [x] = if l.getLast? = some x then l.dropLast else l := by
  unfold stringsTrimSuffix
  have : ([x].isSuffixOf l = true) ↔ l.getLast? = some x := by
    rw [List.isSuffixOf_iff_suffix, List.getLast?_eq_some_iff]
    constructor
    · rintro ⟨t, ht⟩; exact ⟨t, ht.symm⟩
    · rintro ⟨t, ht⟩; exact ⟨t, ht.symm⟩
  by_cases h : l.getLast? = some x
  · rw [if_pos (this.mpr h), if_pos h, List.dropLast_eq_take]; rfl
  · rw [if_neg (fun e => h (this.mp e)), if_neg h]

/-- Removing the separator suffix from the bytes of an ASCII string. -/
theorem stringsTrimSuffix_goBytes {sep : Char} (hs : IsSepChar sep) {t : List Char}
    (h : ∀ r ∈ t, r.toNat < 128) :
    stringsTrimSuffix (goBytes t) (goBytes [sep]) =
      goBytes (if t.getLast? = some sep then t.dropLast else t) := by
  have hsep : goBytes [sep] = [sep.toNat] := by
    rw [goBytes_ascii (by simpa using hs.1)]; rfl
  rw [hsep, stringsTrimSuffix_single, goBytes_ascii h]
  have hlast : ((t.map Char.toNat).getLast? = some sep.toNat) ↔ t.getLast? = some sep := by
    rw [List.getLast?_map]
    cases ht : t.getLast? with
    | none => simp
    | some y => simp [char_eq_iff y sep]
  by_cases hc : t.getLast? = some sep
  · rw [if_pos (hlast.mpr hc), if_pos hc,
      goBytes_ascii (fun r hr => h r (List.mem_of_mem_dropLast hr)), List.map_dropLast]
  · rw [if_neg (fun e => hc (hlast.mp e)), if_neg hc, goBytes_ascii h]

/-! ## Truncation keeps the slug shape -/

/-- A non-empty prefix of a slug, with one trailing separator removed, is a slug. -/
theorem slugShape_truncate {sep : Char} {s : List Char} (h : SlugShape sep s) (n : Nat) :
    SlugShape sep (if (s.take n).getLast? = some sep then (s.take n).dropLast else s.take n) := by
  have hchars : ∀ r ∈ s.take n, isLowerAlnum r = true ∨ r = sep :=
    fun r hr => h.chars r (List.mem_of_mem_take hr)
  have hhead : (s.take n).head? ≠ some sep := by
    rw [List.head?_take]
    split_ifs
    · simp
    · exact h.head
  have hchain := h.single.take n
  by_cases hc : (s.take n).getLast? = some sep
  · rw [if_pos hc]
    obtain ⟨init, hinit⟩ := List.getLast?_eq_some_iff.mp hc
    rw [hinit, List.dropLast_concat]
    rw [hinit] at hchars hhead hchain
    refine ⟨fun r hr => hchars r (by simp [hr]), ?_, ?_, ?_⟩
    · cases init with
      | nil => simp
      | cons x t => simpa using hhead
    · intro e
      exact (List.chain'_append.mp hchain).2.2 sep (by simp [e]) sep (by simp) ⟨rfl, rfl⟩
    · exact (List.chain'_append.mp hchain).1
  · rw [if_neg hc]
    exact ⟨hchars, hhead, hc, hchain⟩

theorem slugShape_of_alnum {sep : Char} (hs : IsSepChar sep) {s : List Char}
    (h : ∀ r ∈ s, isLowerAlnum r = true) : SlugShape sep s := by
  have hsep : ∀ r ∈ s, r ≠ sep := fun r hr => isLowerAlnum_ne_sep hs (h r hr)
  refine ⟨fun r hr => Or.inl (h r hr), ?_, ?_, chain_of_no_sep _ hsep⟩
  · intro e
    exact hsep _ (List.mem_of_mem_head? e) rfl
  · intro e
    exact hsep _ (List.mem_of_getLast?_eq_some e) rfl

/-! ## A string with the slug shape is a sequence of runs -/

theorem runs_of_shape {sep : Char} : ∀ (n : Nat) (s : List Char), s.length ≤ n →
    SlugShape sep s → s ≠ [] → ∃ run runs,
      (∀ p ∈ run :: runs, p ≠ [] ∧ ∀ r ∈ p, isLowerAlnum r = true) ∧
      s = [sep].intercalate (run :: runs) := by
  intro n
  induction n with
  | zero =>
    intro s hlen _ hne
    exact absurd (List.length_eq_zero.mp (Nat.le_zero.mp hlen)) hne
  | succ n ih =>
    intro s hlen h hne
    have hsplit := List.takeWhile_append_dropWhile (fun r => decide (r ≠ sep)) s
    have hpchars : ∀ r ∈ s.takeWhile (fun r => decide (r ≠ sep)), isLowerAlnum r = true := by
      intro r hr
      have h1 : r ≠ sep := by simpa using List.mem_takeWhile_imp hr
      rcases h.chars r (List.IsPrefix.subset ( List.takeWhile_prefix _) hr) with h2 | h2
      · exact h2
      · exact absurd h2 h1
    have hpne : s.takeWhile (fun r => decide (r ≠ sep)) ≠ [] := by
      cases s with
      | nil => exact absurd rfl hne
      | cons x t =>
        have hx : x ≠ sep := by simpa using h.head
        simp [List.takeWhile, hx]
    cases hrest : s.dropWhile (fun r => decide (r ≠ sep)) with
    | nil =>
      refine ⟨s.takeWhile (fun r => decide (r ≠ sep)), [], ?_, ?_⟩
      · intro p hp
        rw [List.mem_singleton] at hp
        subst hp
        exact ⟨hpne, hpchars⟩
      · rw [intercalate_single]
        rw [hrest, List.append_nil] at hsplit
        exact hsplit.symm
    | cons y rest =>
      have hy : y = sep := by
        have := List.head?_dropWhile_not (fun r => decide (r ≠ sep)) s
        rw [hrest] at this
        simpa using this
      subst hy
      rw [hrest] at hsplit
      have hrne : rest ≠ [] := by
        rintro rfl
        apply h.last
        rw [← hsplit]
        simp
      have hchain : List.Chain' (fun a b => ¬(a = y ∧ b = y)) (y :: rest) := by
        have := h.single
        rw [← hsplit] at this
        exact (List.chain'_append.mp this).2.1
      have hshape : SlugShape y rest := by
        refine ⟨?_, ?_, ?_, hchain.tail⟩
        · intro r hr
          apply h.chars
          rw [← hsplit]
          simp [hr]
        · intro e
          exact (List.chain'_cons'.mp hchain).1 y (by simp [e]) ⟨rfl, rfl⟩
        · have := h.last
          rw [← hsplit, List.getLast?_append_of_ne_nil _ (by simp)] at this
          obtain ⟨z, u, rfl⟩ := List.exists_cons_of_ne_nil hrne
          simpa [List.getLast?_cons_cons] using this
      have hlen' : rest.length ≤ n := by
        have := congrArg List.length hsplit
        simp only [List.length_append, List.length_cons] at this
        omega
      obtain ⟨run, runs, hruns, heq⟩ := ih rest hlen' hshape hrne
      refine ⟨s.takeWhile (fun r => decide (r ≠ y)), run :: runs, ?_, ?_⟩
      · intro p hp
        rcases List.mem_cons.mp hp with hp | hp
        · subst hp; exact ⟨hpne, hpchars⟩
        · exact hruns p hp
      · rw [intercalate_cons_cons, ← heq, List.append_assoc]
        exact hsplit.symm

theorem isRuns_of_shape {sep : Char} {s : List Char} (h : SlugShape sep s) : IsRuns sep s := by
  by_cases hne : s = []
  · subst hne
    exact ⟨[], by simp, by simp [List.intercalate]⟩
  · obtain ⟨run, runs, hruns, heq⟩ := runs_of_shape s.length s (Nat.le_refl _) h hne
    exact ⟨run :: runs, hruns, heq⟩

/-! ## The normalized slug of the two modes -/

theorem normalize_isSome (U : UnicodeTables) {separator : List Char} (h : separator ≠ [])
    (s : List Char) : ∃ slug, normalize U separator s = some slug := by
  unfold normalize
  cases hre : mustCompileSep separator with
  | some re => exact ⟨_, rfl⟩
  | none =>
    exfalso
    unfold mustCompileSep at hre
    cases hl : separator.getLast? with
    | none => exact h (List.getLast?_eq_none_iff.mp hl)
    | some r => rw [hl] at hre; simp at hre

theorem map_toLower_lowerAlnum {p : List Char} (h : ∀ r ∈ p, isAsciiAlnum r = true) :
    ∀ r ∈ p.map Char.toLower, isLowerAlnum r = true := by
  intro r hr
  obtain ⟨x, hx, rfl⟩ := List.mem_map.mp hr
  exact (runeToLower_alnum asciiTables (h x hx)).2

/-- The slug of morphology mode before truncation: the lowercased fragments joined by the
separator. -/
theorem normalize_join (U : UnicodeTables) {sep : Char} (hs : IsSepChar sep)
    (tokens : List Token) :
    normalize U [sep] (stringsJoin (romajiParts tokens) [sep]) =
        some ([sep].intercalate ((romajiParts tokens).map (List.map Char.toLower))) ∧
      SlugShape sep ([sep].intercalate ((romajiParts tokens).map (List.map Char.toLower))) := by
  have hparts := romajiParts_alnum tokens
  have hlow := stringsToLower_join U hs (romajiParts tokens) (fun p hp => (hparts p hp).2)
  have hshape : SlugShape sep
      ([sep].intercalate ((romajiParts tokens).map (List.map Char.toLower))) := by
    apply slugShape_join hs
    intro run hrun
    obtain ⟨p, hp, rfl⟩ := List.mem_map.mp hrun
    exact ⟨by simpa using (hparts p hp).1, map_toLower_lowerAlnum (hparts p hp).2⟩
  refine ⟨?_, hshape⟩
  unfold stringsJoin
  rw [← hlow] at hshape ⊢
  exact normalize_of_shape U hshape

/-- The slug of direct mode before truncation: the lowercased romaji. -/
theorem normalize_romaji (U : UnicodeTables) {sep : Char} (hs : IsSepChar sep)
    (text : List Char) :
    normalize U [sep] (kanaToRomaji text) = some ((kanaToRomaji text).map Char.toLower) := by
  have hal := kanaToRomaji_alnum text
  have hshape : SlugShape sep ((kanaToRomaji text).map Char.toLower) :=
    slugShape_of_alnum hs (map_toLower_lowerAlnum hal)
  rw [← stringsToLower_alnum U hal] at hshape ⊢
  exact normalize_of_shape U hshape

theorem take_getLast? {s : List Char} {n : Nat} (h0 : 0 < n) (hn : n ≤ s.length) :
    (s.take n).getLast? = s[n - 1]? := by
  rw [List.getLast?_take, if_neg (by omega)]
  have : n - 1 < s.length := by omega
  simp [List.getElem?_eq_getElem this]

/-- The truncation step of `convertWithMorph` on an ASCII slug with a one-character
separator. -/
theorem truncate_morph {sep : Char} (hs : IsSepChar sep) {S : List Char}
    (hS : ∀ r ∈ S, r.toNat < 128) {n : Nat} (h0 : 0 < n) (hn : n < S.length) :
    stringsTrimSuffix ((goBytes S).take n) (goBytes [sep]) =
      goBytes (if S[n - 1]? = some sep then S.take (n - 1) else S.take n) := by
  rw [goBytes_take hS, stringsTrimSuffix_goBytes hs (fun r hr => hS r (List.mem_of_mem_take hr)),
    take_getLast? h0 (Nat.le_of_lt hn), List.dropLast_take hn]

theorem int_toNat_cases {m : Int} (h : m > 0) : ((m.toNat : Nat) : Int) = m ∧ 0 < m.toNat := by
  omega

/-! ## The claims about `kanaToRomaji` -/

/-- C8. Longest-match precedence: at a two-code-point key `k` the scan emits `table[k]` and
goes on after `k`, also when the first code point of `k` is a key of its own; at a
one-code-point key `c` that forms no key with the next code point it emits `table[c]` and
goes on after `c`. So `シャ` gives `sha` and `シ` gives `shi`. -/
theorem kanaToRomaji_longest_match :
    (∀ k v rest : List Char, k.length = 2 → tableGet k = some v →
      kanaToRomaji (k ++ rest) = v ++ kanaToRomaji rest) ∧
    (∀ (c : Char) (v rest : List Char), tableGet [c] = some v →
      (∀ d, rest.head? = some d → tableGet [c, d] = none) →
      kanaToRomaji (c :: rest) = v ++ kanaToRomaji rest) ∧
    kanaToRomaji "シャ".data = "sha".data ∧ kanaToRomaji "シ".data = "shi".data := by
  refine ⟨?_, ?_, by decide, by decide⟩
  · intro k v rest hk hv
    match k, hk with
    | [a, b], _ =>
      simp only [kanaToRomaji, List.cons_append, List.nil_append, kanaLoop_zero_cons,
        kanaStep_two hv, kanaLoop_succ_cons]
  · intro c v rest hv hnext
    simp only [kanaToRomaji, kanaLoop_zero_cons, kanaStep_one hv rest hnext]

theorem kanaToRomaji_longest_match_witness :
    kanaToRomaji ("チャ".data ++ "ーハン".data) = "cha".data ++ kanaToRomaji "ーハン".data ∧
    kanaToRomaji ('チ' :: "ーズ".data) = "chi".data ++ kanaToRomaji "ーズ".data :=
  ⟨kanaToRomaji_longest_match.1 "チャ".data "cha".data "ーハン".data (by decide) (by decide),
   kanaToRomaji_longest_match.2.1 'チ' "chi".data "ーズ".data (by decide) (by decide)⟩

/-- C9. Gemination: the sokuon emits the first character of the table entry of the code
point that follows it, when there is one and it is a key by itself, and nothing otherwise;
it consumes only itself. So `ッカ` gives `kka` and `ッ` alone gives the empty string. -/
theorem kanaToRomaji_sokuon :
    (∀ rest : List Char,
      kanaToRomaji ('ッ' :: rest) =
        (((rest.head?).bind (fun next => tableGet [next])).getD []).take 1 ++
          kanaToRomaji rest) ∧
    kanaToRomaji "ッカ".data = "kka".data ∧ kanaToRomaji "ッ".data = [] := by
  refine ⟨?_, by decide, by decide⟩
  intro rest
  simp only [kanaToRomaji, kanaLoop_zero_cons, kanaStep_sokuon]

/-- C10. The long-vowel mark, the ASCII space and the full-width space emit nothing and
split the scan: the romaji of `a ++ m ++ b` is the romaji of `a` followed by the romaji of
`b`. So `ラーメン` gives `ramen`. -/
theorem kanaToRomaji_skipped_split :
    (∀ (a b : List Char) (m : Char), m = 'ー' ∨ m = ' ' ∨ m = '　' →
      kanaToRomaji (a ++ [m] ++ b) = kanaToRomaji a ++ kanaToRomaji b) ∧
    kanaToRomaji "ラーメン".data = "ramen".data := by
  refine ⟨?_, by decide⟩
  intro a b m hm
  rw [List.append_assoc, List.singleton_append]
  exact kanaLoop_skipped_split hm b a 0 (Nat.zero_le _)

theorem kanaToRomaji_skipped_split_witness :
    kanaToRomaji ("シ".data ++ ['ー'] ++ "ャ".data) =
      kanaToRomaji "シ".data ++ kanaToRomaji "ャ".data :=
  kanaToRomaji_skipped_split.1 "シ".data "ャ".data 'ー' (Or.inl rfl)

/-! ## The claims about `Convert` -/

/-- C1. Slug shape: for a separator that is one ASCII character other than a letter or
digit, in both modes and for every maximum length, `Convert` returns a slug that is empty
or consists of non-empty runs of `[a-z0-9]` with exactly one separator between consecutive
runs: it contains only lowercase letters, digits and the separator, does not start or end
with the separator and has no two consecutive separators, also after truncation. -/
theorem convert_slug_shape (U : UnicodeTables) (c : Converter) (text : List Char) (sep : Char)
    (hsep : IsSepChar sep) (hc : c.separator = [sep]) :
    ∃ slug : List Char, Convert U c text = some (goBytes slug) ∧
      IsRuns sep slug ∧ SlugShape sep slug := by
  suffices h : ∃ slug : List Char, Convert U c text = some (goBytes slug) ∧ SlugShape sep slug by
    obtain ⟨slug, h1, h2⟩ := h
    exact ⟨slug, h1, isRuns_of_shape h2, h2⟩
  unfold Convert
  by_cases hm : c.useMorph = true
  · rw [if_pos hm]
    unfold convertWithMorph
    obtain ⟨hnorm, hshape⟩ := normalize_join U hsep (c.tokenizer text)
    simp only [hc, hnorm]
    have hascii := slugShape_ascii hsep hshape.chars
    split_ifs with hcut
    · obtain ⟨hpos, hlen⟩ := hcut
      rw [goBytes_length hascii] at hlen
      obtain ⟨hcast, hnat⟩ := int_toNat_cases hpos
      have hlt : c.maxLength.toNat <
          ([sep].intercalate ((romajiParts (c.tokenizer text)).map
            (List.map Char.toLower))).length := by omega
      rw [truncate_morph hsep hascii hnat hlt, ← take_getLast? hnat (Nat.le_of_lt hlt),
        ← List.dropLast_take hlt]
      exact ⟨_, rfl, slugShape_truncate hshape _⟩
    · exact ⟨_, rfl, hshape⟩
  · rw [if_neg hm]
    unfold convertDirect
    simp only [hc, normalize_romaji U hsep text]
    have hlow := map_toLower_lowerAlnum (kanaToRomaji_alnum text)
    have hascii : ∀ r ∈ (kanaToRomaji text).map Char.toLower, r.toNat < 128 :=
      fun r hr => isLowerAlnum_ascii (hlow r hr)
    split_ifs with hcut
    · rw [goBytes_take hascii]
      exact ⟨_, rfl, slugShape_of_alnum hsep (fun r hr => hlow r (List.mem_of_mem_take hr))⟩
    · exact ⟨_, rfl, slugShape_of_alnum hsep hlow⟩

theorem convert_slug_shape_witness :
    IsSepChar '-' ∧
    ∃ slug : List Char,
      Convert asciiTables
        (NewConverter (fixedTokenizer [ipaToken "認証" "ニンショウ", ipaToken "機能" "キノウ"])
          [WithMaxLength 8]) "認証機能".data = some (goBytes slug) ∧
      IsRuns '-' slug ∧ SlugShape '-' slug :=
  ⟨by decide, convert_slug_shape asciiTables _ _ '-' (by decide) rfl⟩

/-- C2. Length: for a separator of one ASCII character and a maximum length above zero,
`Convert` returns, in both modes, a slug of at most that many bytes. -/
theorem convert_length_le (U : UnicodeTables) (c : Converter) (text : List Char) (sep : Char)
    (_hascii : sep.toNat < 128) (hc : c.separator = [sep]) (hmax : c.maxLength > 0) :
    ∃ slug : List Nat, Convert U c text = some slug ∧ (slug.length : Int) ≤ c.maxLength := by
  obtain ⟨hcast, _⟩ := int_toNat_cases hmax
  have htake : ∀ l : List Nat, ((l.take c.maxLength.toNat).length : Int) ≤ c.maxLength := by
    intro l
    have := List.length_take_le c.maxLength.toNat l
    omega
  unfold Convert
  by_cases hm : c.useMorph = true
  · rw [if_pos hm]
    unfold convertWithMorph
    obtain ⟨S, hS⟩ := normalize_isSome U (by rw [hc]; simp : c.separator ≠ [])
      (stringsJoin (romajiParts (c.tokenizer text)) c.separator)
    simp only [hS]
    split_ifs with hcut
    · refine ⟨_, rfl, ?_⟩
      have h1 := htake (goBytes S)
      have h2 : (stringsTrimSuffix (List.take c.maxLength.toNat (goBytes S))
          (goBytes c.separator)).length ≤ (List.take c.maxLength.toNat (goBytes S)).length := by
        unfold stringsTrimSuffix
        split_ifs
        · rw [List.length_take]; omega
        · exact Nat.le_refl _
      omega
    · refine ⟨_, rfl, ?_⟩
      rw [not_and_or] at hcut
      omega
  · rw [if_neg hm]
    unfold convertDirect
    obtain ⟨S, hS⟩ := normalize_isSome U (by rw [hc]; simp : c.separator ≠ [])
      (kanaToRomaji text)
    simp only [hS]
    split_ifs with hcut
    · exact ⟨_, rfl, htake _⟩
    · refine ⟨_, rfl, ?_⟩
      rw [not_and_or] at hcut
      omega

theorem convert_length_le_witness :
    ('a'.toNat < 128 ∧ (3 : Int) > 0) ∧
    ∃ slug : List Nat,
      Convert asciiTables
        { tokenizer := fixedTokenizer [], maxLength := 3, separator := ['a'],
          useMorph := false } "テスト".data = some slug ∧
      (slug.length : Int) ≤ 3 :=
  ⟨by decide, convert_length_le asciiTables
    { tokenizer := fixedTokenizer [], maxLength := 3, separator := ['a'], useMorph := false }
    "テスト".data 'a' (by decide) rfl (by decide)⟩

theorem romajiParts_lower (tokens : List Token) :
    (romajiParts tokens).map (List.map Char.toLower) =
      ((tokens.map getReading).map (fun reading => (kanaToRomaji reading).map Char.toLower)).filter
        (fun fragment => decide (fragment ≠ [])) := by
  induction tokens with
  | nil => rfl
  | cons t ts ih =>
    simp only [romajiParts, List.map_cons]
    by_cases h1 : getReading t = []
    · simp [h1, ih, kanaToRomaji, kanaLoop_nil]
    · by_cases h2 : kanaToRomaji (getReading t) = []
      · simp [h1, h2, ih]
      · simp [h1, h2, ih]

/-- Morphology mode without truncation, for a one-character separator. -/
theorem convert_morph_fits (U : UnicodeTables) (c : Converter) (text : List Char) (sep : Char)
    (hsep : IsSepChar sep) (hc : c.separator = [sep]) (hm : c.useMorph = true)
    (hfit : c.maxLength ≤ 0 ∨
      ((joinedRomaji sep ((c.tokenizer text).map getReading)).length : Int) ≤ c.maxLength) :
    Convert U c text = some (goBytes (joinedRomaji sep ((c.tokenizer text).map getReading))) := by
  unfold joinedRomaji at hfit ⊢
  rw [← romajiParts_lower] at hfit ⊢
  obtain ⟨hnorm, hshape⟩ := normalize_join U hsep (c.tokenizer text)
  have hascii := slugShape_ascii hsep hshape.chars
  unfold Convert
  rw [if_pos hm]
  unfold convertWithMorph
  simp only [hc, hnorm]
  rw [if_neg]
  rw [goBytes_length hascii]
  omega

/-- Morphology mode without truncation on given tokens, with the slug computed. -/
theorem convert_morph_eval (U : UnicodeTables) (c : Converter) (text : List Char) (sep : Char)
    (tokens : List Token) (slug : List Char)
    (hsep : IsSepChar sep) (hc : c.separator = [sep]) (hm : c.useMorph = true)
    (ht : c.tokenizer text = tokens)
    (hslug : joinedRomaji sep (tokens.map getReading) = slug)
    (hfit : c.maxLength ≤ 0 ∨ (slug.length : Int) ≤ c.maxLength) :
    Convert U c text = some (goBytes slug) := by
  subst ht hslug
  exact convert_morph_fits U c text sep hsep hc hm hfit

/-- C4. Morphology mode without truncation: for a separator that is one ASCII character
other than a letter or digit, when the maximum length is zero or negative or the slug fits,
the slug is the lowercased romaji of the readings, those with empty romaji left out, joined
by exactly one separator. Readings `a`, `機`, `b` give `a-b`; readings `テスト`, `キノウ` with
separator `_` give `tesuto_kinou`; readings `ニンショウ`, `キノウ`, `ノ`, `ジッソウ` with the
defaults give `ninshou-kinou-no-jissou`. -/
theorem convert_morph_result :
    (∀ (U : UnicodeTables) (c : Converter) (text : List Char) (sep : Char),
      IsSepChar sep → c.separator = [sep] → c.useMorph = true →
      (c.maxLength ≤ 0 ∨
        ((joinedRomaji sep ((c.tokenizer text).map getReading)).length : Int) ≤ c.maxLength) →
      Convert U c text =
        some (goBytes (joinedRomaji sep ((c.tokenizer text).map getReading)))) ∧
    (∀ (U : UnicodeTables) (text : List Char),
      Convert U (NewConverter
        (fixedTokenizer [ipaToken "a" "a", ipaToken "機" "機", ipaToken "b" "b"]) []) text =
        some (goBytes "a-b".data)) ∧
    (∀ (U : UnicodeTables) (text : List Char),
      Convert U (NewConverter
        (fixedTokenizer [ipaToken "テスト" "テスト", ipaToken "機能" "キノウ"])
        [WithSeparator "_".data]) text = some (goBytes "tesuto_kinou".data)) ∧
    (∀ (U : UnicodeTables) (text : List Char),
      Convert U (NewConverter
        (fixedTokenizer [ipaToken "認証" "ニンショウ", ipaToken "機能" "キノウ", ipaToken "の" "ノ",
          ipaToken "実装" "ジッソウ"]) []) text =
        some (goBytes "ninshou-kinou-no-jissou".data)) := by
  refine ⟨convert_morph_fits, ?_, ?_, ?_⟩
  · intro U text
    exact convert_morph_eval U _ text '-'
      [ipaToken "a" "a", ipaToken "機" "機", ipaToken "b" "b"] _
      (by decide) rfl rfl rfl (by decide) (Or.inr (by decide))
  · intro U text
    exact convert_morph_eval U _ text '_'
      [ipaToken "テスト" "テスト", ipaToken "機能" "キノウ"] _
      (by decide) rfl rfl rfl (by decide) (Or.inr (by decide))
  · intro U text
    exact convert_morph_eval U _ text '-'
      [ipaToken "認証" "ニンショウ", ipaToken "機能" "キノウ", ipaToken "の" "ノ",
        ipaToken "実装" "ジッソウ"] _
      (by decide) rfl rfl rfl (by decide) (Or.inr (by decide))

theorem convert_morph_result_witness :
    (IsSepChar '.' ∧ (0 : Int) ≤ 0) ∧
    Convert asciiTables
        { tokenizer := fixedTokenizer [ipaToken "東京" "トウキョウ", ipaToken "2024" "*"],
          maxLength := 0, separator := ['.'], useMorph := true } "東京2024".data =
      some (goBytes (joinedRomaji '.' ["トウキョウ".data, "2024".data])) :=
  ⟨by decide, convert_morph_result.1 asciiTables
    { tokenizer := fixedTokenizer [ipaToken "東京" "トウキョウ", ipaToken "2024" "*"],
      maxLength := 0, separator := ['.'], useMorph := true } "東京2024".data '.'
    (by decide) rfl rfl (Or.inl (Int.le_refl 0))⟩

theorem normalizedSlug_morph (U : UnicodeTables) (c : Converter) (text : List Char) (sep : Char)
    (hsep : IsSepChar sep) (hc : c.separator = [sep]) (hm : c.useMorph = true) :
    normalizedSlug U c text = some (joinedRomaji sep ((c.tokenizer text).map getReading)) ∧
      SlugShape sep (joinedRomaji sep ((c.tokenizer text).map getReading)) := by
  unfold normalizedSlug joinedRomaji
  rw [if_pos hm, hc, ← romajiParts_lower]
  exact normalize_join U hsep (c.tokenizer text)

theorem convert_eq_of_normalizedSlug (U : UnicodeTables) (c : Converter) (text S : List Char)
    (h : normalizedSlug U c text = some S) :
    Convert U c text =
      if c.maxLength > 0 ∧ ((goBytes S).length : Int) > c.maxLength then
        (if c.useMorph = true then
          some (stringsTrimSuffix ((goBytes S).take c.maxLength.toNat) (goBytes c.separator))
        else some ((goBytes S).take c.maxLength.toNat))
      else some (goBytes S) := by
  unfold normalizedSlug at h
  unfold Convert
  by_cases hm : c.useMorph = true
  · rw [if_pos hm] at h
    simp only [if_pos hm, convertWithMorph, h]
  · rw [if_neg hm] at h
    simp only [if_neg hm, convertDirect, h]

/-- Direct mode for a one-character separator. -/
theorem convert_direct_cut (U : UnicodeTables) (c : Converter) (text : List Char) (sep : Char)
    (hsep : IsSepChar sep) (hc : c.separator = [sep]) (hm : c.useMorph = false) :
    Convert U c text =
      some (goBytes
        (if c.maxLength > 0 ∧ (((kanaToRomaji text).map Char.toLower).length : Int) > c.maxLength
          then ((kanaToRomaji text).map Char.toLower).take c.maxLength.toNat
          else (kanaToRomaji text).map Char.toLower)) := by
  have hlow := map_toLower_lowerAlnum (kanaToRomaji_alnum text)
  have hascii : ∀ r ∈ (kanaToRomaji text).map Char.toLower, r.toNat < 128 :=
    fun r hr => isLowerAlnum_ascii (hlow r hr)
  have hS : normalizedSlug U c text = some ((kanaToRomaji text).map Char.toLower) := by
    unfold normalizedSlug
    simp only [hm, hc]
    exact normalize_romaji U hsep text
  rw [convert_eq_of_normalizedSlug U c text _ hS, goBytes_length hascii]
  by_cases hcut : c.maxLength > 0 ∧
      (((kanaToRomaji text).map Char.toLower).length : Int) > c.maxLength
  · rw [if_pos hcut, if_pos hcut, if_neg (by simp [hm]), goBytes_take hascii]
  · rw [if_neg hcut, if_neg hcut]

theorem convert_direct_eval (U : UnicodeTables) (c : Converter) (text slug : List Char)
    (sep : Char) (n : Int) (hsep : IsSepChar sep) (hc : c.separator = [sep])
    (hm : c.useMorph = false) (hn : c.maxLength = n)
    (hslug : (if n > 0 ∧ (((kanaToRomaji text).map Char.toLower).length : Int) > n
      then ((kanaToRomaji text).map Char.toLower).take n.toNat
      else (kanaToRomaji text).map Char.toLower) = slug) :
    Convert U c text = some (goBytes slug) := by
  subst hslug hn
  exact convert_direct_cut U c text sep hsep hc hm

/-- C5. Direct mode with separator `-`: `Convert` returns the lowercased romaji of the
text, cut to its first `maxLength` characters when `maxLength` is above zero and the romaji
is longer. `テスト` gives `tesuto`, and so does `テスト機能` (the kanji are dropped). -/
theorem convert_direct_result :
    (∀ (U : UnicodeTables) (c : Converter) (text : List Char),
      c.separator = "-".data → c.useMorph = false →
      Convert U c text =
        some (goBytes
          (if c.maxLength > 0 ∧
              (((kanaToRomaji text).map Char.toLower).length : Int) > c.maxLength
            then ((kanaToRomaji text).map Char.toLower).take c.maxLength.toNat
            else (kanaToRomaji text).map Char.toLower))) ∧
    (∀ (U : UnicodeTables) (t : List Char → List Token),
      Convert U (NewConverter t [WithMorphAnalysis false]) "テスト".data =
        some (goBytes "tesuto".data)) ∧
    (∀ (U : UnicodeTables) (t : List Char → List Token),
      Convert U (NewConverter t [WithMorphAnalysis false]) "テスト機能".data =
        some (goBytes "tesuto".data)) := by
  refine ⟨?_, ?_, ?_⟩
  · intro U c text hc hm
    exact convert_direct_cut U c text '-' (by decide) hc hm
  · intro U t
    exact convert_direct_eval U _ _ _ '-' 50 (by decide) rfl rfl rfl (by decide)
  · intro U t
    exact convert_direct_eval U _ _ _ '-' 50 (by decide) rfl rfl rfl (by decide)

theorem convert_direct_result_witness :
    Convert asciiTables
        { tokenizer := fixedTokenizer [], maxLength := 4, separator := "-".data,
          useMorph := false } "ラーメン".data =
      some (goBytes
        (if (4 : Int) > 0 ∧ (((kanaToRomaji "ラーメン".data).map Char.toLower).length : Int) > 4
          then ((kanaToRomaji "ラーメン".data).map Char.toLower).take (4 : Int).toNat
          else (kanaToRomaji "ラーメン".data).map Char.toLower)) :=
  convert_direct_result.1 asciiTables
    { tokenizer := fixedTokenizer [], maxLength := 4, separator := "-".data, useMorph := false }
    "ラーメン".data rfl rfl

/-- Morphology mode with truncation, for a one-character separator. -/
theorem convert_morph_cut (U : UnicodeTables) (c : Converter) (text : List Char) (sep : Char)
    (S : List Char) (hsep : IsSepChar sep) (hc : c.separator = [sep]) (hm : c.useMorph = true)
    (hmax : c.maxLength > 0) (hS : normalizedSlug U c text = some S)
    (hlen : (S.length : Int) > c.maxLength) :
    Convert U c text =
        some (goBytes (if S[c.maxLength.toNat - 1]? = some sep
          then S.take (c.maxLength.toNat - 1) else S.take c.maxLength.toNat)) ∧
      (if S[c.maxLength.toNat - 1]? = some sep
        then S.take (c.maxLength.toNat - 1) else S.take c.maxLength.toNat).getLast? ≠
          some sep := by
  obtain ⟨hS', hshape⟩ := normalizedSlug_morph U c text sep hsep hc hm
  have hSeq : joinedRomaji sep ((c.tokenizer text).map getReading) = S :=
    Option.some.inj (hS'.symm.trans hS)
  rw [hSeq] at hshape
  have hascii := slugShape_ascii hsep hshape.chars
  obtain ⟨hcast, hnat⟩ := int_toNat_cases hmax
  have hlt : c.maxLength.toNat < S.length := by omega
  constructor
  · rw [convert_eq_of_normalizedSlug U c text S hS, goBytes_length hascii,
      if_pos ⟨hmax, hlen⟩, if_pos hm, hc, truncate_morph hsep hascii hnat hlt]
  · have := (slugShape_truncate hshape c.maxLength.toNat).last
    rw [take_getLast? hnat (Nat.le_of_lt hlt), List.dropLast_take hlt] at this
    exact this

theorem convert_morph_cut_eval (U : UnicodeTables) (c : Converter) (text : List Char)
    (sep : Char) (tokens : List Token) (n : Nat) (S slug : List Char)
    (hsep : IsSepChar sep) (hc : c.separator = [sep]) (hm : c.useMorph = true)
    (ht : c.tokenizer text = tokens) (hn : c.maxLength = (n : Int)) (h0 : 0 < n)
    (hS : joinedRomaji sep (tokens.map getReading) = S) (hlen : n < S.length)
    (hslug : (if S[n - 1]? = some sep then S.take (n - 1) else S.take n) = slug) :
    Convert U c text = some (goBytes slug) := by
  subst ht hS hslug
  have hS' := (normalizedSlug_morph U c text sep hsep hc hm).1
  have h := (convert_morph_cut U c text sep _ hsep hc hm (by omega) hS' (by omega)).1
  rw [hn] at h
  exact h

/-- C6. Truncation in morphology mode: for a separator that is one ASCII character other
than a letter or digit and a maximum length above zero, a slug `S` longer than the maximum
is cut to its first `maxLength` characters, or to its first `maxLength - 1` characters when
the character of `S` at position `maxLength` is the separator; the result does not end with
the separator. For `ninshou-kinou-no-jissou` the maximum 16 gives `ninshou-kinou-no` and the
maximum 14 gives `ninshou-kinou`. -/
theorem convert_morph_truncation :
    (∀ (U : UnicodeTables) (c : Converter) (text : List Char) (sep : Char) (S : List Char),
      IsSepChar sep → c.separator = [sep] → c.useMorph = true → c.maxLength > 0 →
      normalizedSlug U c text = some S → (S.length : Int) > c.maxLength →
      Convert U c text =
          some (goBytes (if S[c.maxLength.toNat - 1]? = some sep
            then S.take (c.maxLength.toNat - 1) else S.take c.maxLength.toNat)) ∧
        (if S[c.maxLength.toNat - 1]? = some sep
          then S.take (c.maxLength.toNat - 1) else S.take c.maxLength.toNat).getLast? ≠
            some sep) ∧
    (∀ (U : UnicodeTables) (text : List Char),
      Convert U (NewConverter
        (fixedTokenizer [ipaToken "認証" "ニンショウ", ipaToken "機能" "キノウ", ipaToken "の" "ノ",
          ipaToken "実装" "ジッソウ"]) [WithMaxLength 16]) text =
        some (goBytes "ninshou-kinou-no".data)) ∧
    (∀ (U : UnicodeTables) (text : List Char),
      Convert U (NewConverter
        (fixedTokenizer [ipaToken "認証" "ニンショウ", ipaToken "機能" "キノウ", ipaToken "の" "ノ",
          ipaToken "実装" "ジッソウ"]) [WithMaxLength 14]) text =
        some (goBytes "ninshou-kinou".data)) := by
  refine ⟨convert_morph_cut, ?_, ?_⟩
  · intro U text
    exact convert_morph_cut_eval U _ text '-'
      [ipaToken "認証" "ニンショウ", ipaToken "機能" "キノウ", ipaToken "の" "ノ",
        ipaToken "実装" "ジッソウ"] 16 "ninshou-kinou-no-jissou".data _
      (by decide) rfl rfl rfl rfl (by decide) (by decide) (by decide) (by decide)
  · intro U text
    exact convert_morph_cut_eval U _ text '-'
      [ipaToken "認証" "ニンショウ", ipaToken "機能" "キノウ", ipaToken "の" "ノ",
        ipaToken "実装" "ジッソウ"] 14 "ninshou-kinou-no-jissou".data _
      (by decide) rfl rfl rfl rfl (by decide) (by decide) (by decide) (by decide)

theorem convert_morph_truncation_witness :
    (IsSepChar '_' ∧ (7 : Int) > 0 ∧
      normalizedSlug asciiTables
        { tokenizer := fixedTokenizer [ipaToken "テスト" "テスト", ipaToken "機能" "キノウ"],
          maxLength := 7, separator := ['_'], useMorph := true } "テスト機能".data =
        some "tesuto_kinou".data ∧
      (("tesuto_kinou".data).length : Int) > 7) ∧
    Convert asciiTables
        { tokenizer := fixedTokenizer [ipaToken "テスト" "テスト", ipaToken "機能" "キノウ"],
          maxLength := 7, separator := ['_'], useMorph := true } "テスト機能".data =
      some (goBytes "tesuto".data) :=
  ⟨⟨by decide, by decide, by decide, by decide⟩,
   (convert_morph_truncation.1 asciiTables
    { tokenizer := fixedTokenizer [ipaToken "テスト" "テスト", ipaToken "機能" "キノウ"],
      maxLength := 7, separator := ['_'], useMorph := true } "テスト機能".data '_'
    "tesuto_kinou".data (by decide) rfl rfl (by decide) (by decide) (by decide)).1⟩

/-- C7. Truncation disabled: in both modes and for every separator, when normalization
yields the slug `S` and the maximum length is zero or negative, or `S` is not longer than
it, `Convert` returns `S` unchanged; normalization yields a slug for every non-empty
separator. -/
theorem convert_no_truncation :
    (∀ (U : UnicodeTables) (c : Converter) (text S : List Char),
      normalizedSlug U c text = some S →
      (c.maxLength ≤ 0 ∨ ((goBytes S).length : Int) ≤ c.maxLength) →
      Convert U c text = some (goBytes S)) ∧
    (∀ (U : UnicodeTables) (c : Converter) (text : List Char),
      c.separator ≠ [] → ∃ S, normalizedSlug U c text = some S) := by
  constructor
  · intro U c text S hS hfit
    rw [convert_eq_of_normalizedSlug U c text S hS, if_neg]
    omega
  · intro U c text hsep
    unfold normalizedSlug
    split_ifs
    · exact normalize_isSome U hsep _
    · exact normalize_isSome U hsep _

theorem convert_no_truncation_witness :
    (normalizedSlug asciiTables
        { tokenizer := fixedTokenizer [ipaToken "テスト" "テスト", ipaToken "機能" "キノウ"],
          maxLength := -1, separator := "・".data, useMorph := true } "テスト機能".data =
        some "tesuto・kinou".data ∧ ((-1 : Int) ≤ 0)) ∧
    Convert asciiTables
        { tokenizer := fixedTokenizer [ipaToken "テスト" "テスト", ipaToken "機能" "キノウ"],
          maxLength := -1, separator := "・".data, useMorph := true } "テスト機能".data =
      some (goBytes "tesuto・kinou".data) :=
  ⟨⟨by decide, by decide⟩,
   convert_no_truncation.1 asciiTables
    { tokenizer := fixedTokenizer [ipaToken "テスト" "テスト", ipaToken "機能" "キノウ"],
      maxLength := -1, separator := "・".data, useMorph := true } "テスト機能".data
    "tesuto・kinou".data (by decide) (Or.inl (by decide))⟩

/-! ## Two passes of `normalize` -/

theorem replaceAllLoop_nil (U : UnicodeTables) (re : SepPattern) (repl : List Char)
    (skip : Nat) : replaceAllLoop U re repl skip [] = [] := by
  cases skip <;> rfl

theorem replaceAllLoop_drop (U : UnicodeTables) (re : SepPattern) (repl : List Char) :
    ∀ (s : List Char) (skip : Nat),
      replaceAllLoop U re repl skip s = replaceAllLoop U re repl 0 (s.drop skip) := by
  intro s
  induction s with
  | nil => intro skip; simp [replaceAllLoop_nil]
  | cons r s ih =>
    intro skip
    cases skip with
    | zero => rfl
    | succ skip =>
      rw [List.drop_succ_cons, ← ih skip]
      rfl

theorem drop_length_takeWhile (p : Char → Bool) :
    ∀ s : List Char, s.drop (s.takeWhile p).length = s.dropWhile p := by
  intro s
  induction s with
  | nil => rfl
  | cons x t ih =>
    by_cases hx : p x = true
    · simp [List.takeWhile, List.dropWhile, hx, ih]
    · simp [List.takeWhile, List.dropWhile, hx]

/-- One step of the collapsing of a one-character separator. -/
theorem replaceAll_single_cons (U : UnicodeTables) (c r : Char) (src : List Char) :
    replaceAllLoop U ⟨[], c⟩ [c] 0 (r :: src) =
      if r = c then
        c :: replaceAllLoop U ⟨[], c⟩ [c] 0 (src.dropWhile (fun x => decide (x = c)))
      else r :: replaceAllLoop U ⟨[], c⟩ [c] 0 src := by
  rw [replaceAllLoop, matchLength_single]
  by_cases hr : r = c
  · simp only [hr, if_true, expandLoop_single, Nat.add_sub_cancel_left]
    rw [replaceAllLoop_drop, drop_length_takeWhile]
    rfl
  · simp [hr]

/-- After the collapsing step no two separators are adjacent, and nothing new appears. -/
theorem replaceAll_single_chain (U : UnicodeTables) (c : Char) :
    ∀ (n : Nat) (s : List Char), s.length ≤ n →
      (replaceAllLoop U ⟨[], c⟩ [c] 0 s).Chain' (fun a b => ¬(a = c ∧ b = c)) ∧
      (∀ r ∈ replaceAllLoop U ⟨[], c⟩ [c] 0 s, r ∈ s) ∧
      (replaceAllLoop U ⟨[], c⟩ [c] 0 s).head? = s.head? := by
  intro n
  induction n with
  | zero =>
    intro s hs
    have : s = [] := List.length_eq_zero.mp (Nat.le_zero.mp hs)
    subst this
    simp [replaceAllLoop_nil]
  | succ n ih =>
    intro s hs
    cases s with
    | nil => simp [replaceAllLoop_nil]
    | cons r src =>
      have hsrc : src.length ≤ n := by simpa using hs
      rw [replaceAll_single_cons]
      by_cases hr : r = c
      · subst hr
        have hdw : (src.dropWhile (fun x => decide (x = r))).length ≤ n :=
          Nat.le_trans (List.dropWhile_sublist _).length_le hsrc
        obtain ⟨h1, h2, h3⟩ := ih _ hdw
        simp only [if_true]
        refine ⟨?_, ?_, by simp⟩
        · rw [List.chain'_cons']
          refine ⟨?_, h1⟩
          intro y hy hyy
          rw [h3] at hy
          have := List.head?_dropWhile_not (fun x => decide (x = r)) src
          rw [Option.mem_def.mp hy] at this
          simp [hyy.2] at this
        · intro x hx
          rcases List.mem_cons.mp hx with hx | hx
          · simp [hx]
          · exact List.mem_cons_of_mem _ ((List.dropWhile_sublist _).subset (h2 x hx))
      · obtain ⟨h1, h2, h3⟩ := ih _ hsrc
        simp only [if_neg hr]
        refine ⟨?_, ?_, by simp⟩
        · rw [List.chain'_cons']
          exact ⟨fun y _ hyy => hr hyy.1, h1⟩
        · intro x hx
          rcases List.mem_cons.mp hx with hx | hx
          · simp [hx]
          · exact List.mem_cons_of_mem _ (h2 x hx)

/-- Trimming a string without adjacent separators leaves a string of the slug shape. -/
theorem slugShape_trim {sep : Char} {s : List Char}
    (hchars : ∀ r ∈ s, isLowerAlnum r = true ∨ r = sep)
    (hchain : s.Chain' (fun a b => ¬(a = sep ∧ b = sep))) :
    SlugShape sep (stringsTrim s [sep]) := by
  unfold stringsTrim
  have hpre : (s.dropWhile (fun r => decide (r ∈ [sep]))).rdropWhile
      (fun r => decide (r ∈ [sep])) <+: s.dropWhile (fun r => decide (r ∈ [sep])) :=
    List.rdropWhile_prefix _ _
  have hsuf : s.dropWhile (fun r => decide (r ∈ [sep])) <:+ s := List.dropWhile_suffix _
  have hhead : (s.dropWhile (fun r => decide (r ∈ [sep]))).head? ≠ some sep := by
    intro e
    have := List.head?_dropWhile_not (fun r => decide (r ∈ [sep])) s
    rw [e] at this
    simp at this
  refine ⟨?_, ?_, ?_, ?_⟩
  · intro r hr
    exact hchars r (hsuf.subset (hpre.subset hr))
  · intro e
    obtain ⟨t, ht⟩ := hpre
    cases hd : (s.dropWhile (fun r => decide (r ∈ [sep]))).rdropWhile
        (fun r => decide (r ∈ [sep])) with
    | nil => rw [hd] at e; simp at e
    | cons x u =>
      rw [hd] at e ht
      apply hhead
      rw [← ht]
      simpa using e
  · intro e
    have hne : (s.dropWhile (fun r => decide (r ∈ [sep]))).rdropWhile
        (fun r => decide (r ∈ [sep])) ≠ [] := by
      intro h0; rw [h0] at e; simp at e
    have := List.rdropWhile_last_not (fun r => decide (r ∈ [sep]))
      (s.dropWhile (fun r => decide (r ∈ [sep]))) hne
    rw [List.getLast?_eq_getLast _ hne] at e
    exact this (by rw [Option.some.inj e]; simp)
  · exact List.Chain'.prefix (List.Chain'.suffix hchain hsuf) hpre

/-- A string of the slug shape is a fixed point of `normalize`. -/
theorem normalize_fixed (U : UnicodeTables) {sep : Char} (hs : IsSepChar sep) {s : List Char}
    (h : SlugShape sep s) : normalize U [sep] s = some s := by
  have hlow : stringsToLower U s = s := by
    unfold stringsToLower
    conv_rhs => rw [← List.map_id s]
    apply List.map_congr_left
    intro r hr
    rcases h.chars r hr with h1 | h1
    · exact runeToLower_lower U h1
    · rw [h1]; exact runeToLower_sep U hs
  have hshape : SlugShape sep (stringsToLower U s) := by rw [hlow]; exact h
  have := normalize_of_shape U hshape
  rw [hlow] at this
  exact this

/-- Where the filter has nothing to remove, `normalize` returns a string of the slug
shape. -/
theorem normalize_shape_of_alnum (U : UnicodeTables) {sep : Char} (hs : IsSepChar sep)
    {s : List Char} (h : ∀ r ∈ s, isAsciiAlnum r = true ∨ r = sep) :
    ∃ slug, normalize U [sep] s = some slug ∧ SlugShape sep slug := by
  have hlow : ∀ r ∈ stringsToLower U s, isLowerAlnum r = true ∨ r = sep := by
    intro r hr
    obtain ⟨x, hx, rfl⟩ := List.mem_map.mp hr
    rcases h x hx with h1 | h1
    · left
      rw [(runeToLower_alnum U h1).1]
      exact (runeToLower_alnum U h1).2
    · right
      rw [h1]
      exact runeToLower_sep U hs
  obtain ⟨hchain, hsub, _⟩ :=
    replaceAll_single_chain U sep _ (stringsToLower U s) (Nat.le_refl _)
  have hchars : ∀ r ∈ replaceAllLoop U ⟨[], sep⟩ [sep] 0 (stringsToLower U s),
      isLowerAlnum r = true ∨ r = sep := fun r hr => hlow r (hsub r hr)
  refine ⟨stringsTrim (replaceAllLoop U ⟨[], sep⟩ [sep] 0 (stringsToLower U s)) [sep], ?_,
    slugShape_trim hchars hchain⟩
  unfold normalize
  simp only [mustCompileSep_single, replaceAllString]
  rw [filter_shape hchars]

/-- C3 as stated fails: the filter of the first pass brings the two separators of `a-!-b`
together after the collapsing step, and only a second pass collapses them. -/
theorem normalize_not_idempotent :
    ¬ ∃ U : UnicodeTables,
      (normalize U "-".data "a-!-b".data).bind (normalize U "-".data) =
        normalize U "-".data "a-!-b".data := by
  rintro ⟨U, h⟩
  have h1 : normalize U "-".data "a-!-b".data = some "a--b".data := rfl
  have h2 : normalize U "-".data "a--b".data = some "a-b".data := rfl
  rw [h1, Option.some_bind, h2] at h
  exact absurd h (by decide)

/-- C3, amended. With separator `-`, a second pass of `normalize` changes nothing for every
string made only of ASCII letters, digits and `-`, where the filter has nothing to remove;
and a string that already has the slug shape is returned unchanged. -/
theorem normalize_idempotent_of_alnum :
    (∀ (U : UnicodeTables) (s : List Char),
      (∀ r ∈ s, isAsciiAlnum r = true ∨ r = '-') →
      ∃ slug, normalize U "-".data s = some slug ∧ normalize U "-".data slug = some slug) ∧
    (∀ (U : UnicodeTables) (s : List Char),
      SlugShape '-' s → normalize U "-".data s = some s) := by
  have hs : IsSepChar '-' := by decide
  constructor
  · intro U s h
    obtain ⟨slug, h1, h2⟩ := normalize_shape_of_alnum U hs h
    exact ⟨slug, h1, normalize_fixed U hs h2⟩
  · intro U s h
    exact normalize_fixed U hs h

theorem normalize_idempotent_of_alnum_witness :
    (∀ r ∈ "-Ab--9-".data, isAsciiAlnum r = true ∨ r = '-') ∧
    ∃ slug, normalize asciiTables "-".data "-Ab--9-".data = some slug ∧
      normalize asciiTables "-".data slug = some slug :=
  ⟨by decide, normalize_idempotent_of_alnum.1 asciiTables "-Ab--9-".data (by decide)⟩

/-! ## Code points without a table entry -/

set_option maxRecDepth 100000 in
theorem table_key_katakana : ∀ e ∈ kanaToRomajiTable, ∀ r ∈ e.1,
    0x30A1 ≤ r.toNat ∧ r.toNat ≤ 0x30FA := by
  decide

theorem tableGet_cons_none {c : Char} (h : startsKey c = false) (k : List Char) :
    tableGet (c :: k) = none := by
  cases hk : tableGet (c :: k) with
  | none => rfl
  | some v =>
    exfalso
    have hmem := tableGet_mem hk
    have : startsKey c = true := by
      unfold startsKey
      rw [List.any_eq_true]
      exact ⟨_, hmem, by simp⟩
    rw [h] at this
    exact Bool.false_ne_true this

theorem startsKey_false_of_not_katakana {c : Char}
    (h : c.toNat < 0x30A1 ∨ 0x30FA < c.toNat) : startsKey c = false := by
  rw [Bool.eq_false_iff]
  intro hs
  unfold startsKey at hs
  rw [List.any_eq_true] at hs
  obtain ⟨e, he, hhead⟩ := hs
  have hc : c ∈ e.1 := List.mem_of_mem_head? (by simpa using hhead)
  have := table_key_katakana e he c hc
  omega

/-- The step at a code point that is not handled specially and starts no key: an ASCII
letter or digit is kept, anything else is dropped. -/
theorem kanaStep_unmapped {c : Char} (h1 : c ≠ 'ッ') (h2 : c ≠ 'ー') (h3 : c ≠ ' ')
    (h4 : c ≠ '　') (hkey : startsKey c = false) (rest : List Char) :
    kanaStep c rest = (if isAsciiAlnum c = true then [c] else [], 0) := by
  unfold kanaStep
  match rest with
  | [] => simp [h1, h2, h3, h4, tableGet_cons_none hkey]
  | [d] => simp [h1, h2, h3, h4, tableGet_cons_none hkey]
  | d :: e :: rest => simp [h1, h2, h3, h4, tableGet_cons_none hkey]

theorem not_special_of_toNat {c : Char} (h : c.toNat < 0x3000 ∧ c.toNat ≠ 32 ∨
    (0x3000 < c.toNat ∧ c.toNat < 0x30C3)) :
    c ≠ 'ッ' ∧ c ≠ 'ー' ∧ c ≠ ' ' ∧ c ≠ '　' := by
  refine ⟨?_, ?_, ?_, ?_⟩ <;>
  · intro e
    rw [char_eq_iff] at e
    simp at e
    omega

theorem kanaStep_asciiAlnum {c : Char} (h : isAsciiAlnum c = true) (rest : List Char) :
    kanaStep c rest = ([c], 0) := by
  have hn := (isAsciiAlnum_iff c).mp h
  obtain ⟨h1, h2, h3, h4⟩ := not_special_of_toNat (c := c) (Or.inl (by omega))
  rw [kanaStep_unmapped h1 h2 h3 h4 (startsKey_false_of_not_katakana (Or.inl (by omega))),
    if_pos h]

theorem kanaToRomaji_asciiAlnum : ∀ s : List Char, (∀ r ∈ s, isAsciiAlnum r = true) →
    kanaToRomaji s = s := by
  intro s
  induction s with
  | nil => intro _; rfl
  | cons c s ih =>
    intro h
    have hs := ih (fun r hr => h r (List.mem_cons_of_mem _ hr))
    unfold kanaToRomaji at hs ⊢
    rw [kanaLoop_zero_cons, kanaStep_asciiAlnum (h c (by simp)), hs]
    rfl

/-- C11. Fallback for unmapped code points: at a code point that is not the sokuon, the
long-vowel mark or a space and starts no table key, the scan keeps an ASCII letter or digit
and drops anything else, and goes on with the next code point. So a string of ASCII letters
and digits is returned unchanged, and every input has a result. -/
theorem kanaToRomaji_fallback :
    (∀ (c : Char) (rest : List Char), c ≠ 'ッ' → c ≠ 'ー' → c ≠ ' ' → c ≠ '　' →
      startsKey c = false →
      kanaToRomaji (c :: rest) =
        (if isAsciiAlnum c = true then [c] else []) ++ kanaToRomaji rest) ∧
    (∀ s : List Char, (∀ r ∈ s, isAsciiAlnum r = true) → kanaToRomaji s = s) ∧
    (∀ kana : List Char, ∃ romaji : List Char, kanaToRomaji kana = romaji) := by
  refine ⟨?_, kanaToRomaji_asciiAlnum, fun kana => ⟨_, rfl⟩⟩
  intro c rest h1 h2 h3 h4 hkey
  simp only [kanaToRomaji, kanaLoop_zero_cons, kanaStep_unmapped h1 h2 h3 h4 hkey]

theorem kanaToRomaji_fallback_witness :
    kanaToRomaji ('機' :: "能B2".data) =
        (if isAsciiAlnum '機' = true then ['機'] else []) ++ kanaToRomaji "能B2".data ∧
    kanaToRomaji "Ab9".data = "Ab9".data :=
  ⟨kanaToRomaji_fallback.1 '機' "能B2".data (by decide) (by decide) (by decide) (by decide)
    (by decide),
   kanaToRomaji_fallback.2.1 "Ab9".data (by decide)⟩

set_option maxRecDepth 100000 in
/-- C14. Table invariant: every key of the table is non-empty, and every value is a
non-empty string of lowercase ASCII letters. -/
theorem table_invariant :
    ∀ e ∈ kanaToRomajiTable, e.1 ≠ [] ∧ e.2 ≠ [] ∧ ∀ r ∈ e.2, 'a' ≤ r ∧ r ≤ 'z' := by
  decide

theorem table_invariant_witness :
    kv "シャ" "sha" ∈ kanaToRomajiTable ∧
    ((kv "シャ" "sha").1 ≠ [] ∧ (kv "シャ" "sha").2 ≠ [] ∧
      ∀ r ∈ (kv "シャ" "sha").2, 'a' ≤ r ∧ r ≤ 'z') :=
  ⟨by decide, table_invariant (kv "シャ" "sha") (by decide)⟩

/-- C15. The output of `kanaToRomaji` is ASCII: for every input, every character of the
result is an ASCII letter or an ASCII digit, so lowercasing it is ASCII lowercasing and
leaves only lowercase letters and digits. -/
theorem kanaToRomaji_ascii :
    (∀ (kana : List Char), ∀ r ∈ kanaToRomaji kana, isAsciiAlnum r = true ∧ r.toNat < 128) ∧
    (∀ (U : UnicodeTables) (kana : List Char),
      stringsToLower U (kanaToRomaji kana) = (kanaToRomaji kana).map Char.toLower ∧
      ∀ r ∈ stringsToLower U (kanaToRomaji kana), isLowerAlnum r = true) := by
  constructor
  · intro kana r hr
    have h := kanaToRomaji_alnum kana r hr
    refine ⟨h, ?_⟩
    rw [isAsciiAlnum_iff] at h
    omega
  · intro U kana
    have h := stringsToLower_alnum U (kanaToRomaji_alnum kana)
    rw [h]
    exact ⟨rfl, map_toLower_lowerAlnum (kanaToRomaji_alnum kana)⟩

theorem kanaToRomaji_ascii_witness :
    'k' ∈ kanaToRomaji "ッカ漢字Z".data ∧ (isAsciiAlnum 'k' = true ∧ 'k'.toNat < 128) :=
  ⟨by decide, kanaToRomaji_ascii.1 "ッカ漢字Z".data 'k' (by decide)⟩

/-! ## Hiragana and small katakana -/

theorem kanaStep_hiragana {c : Char} (h : isHiragana c = true) (rest : List Char) :
    kanaStep c rest = ([], 0) := by
  have hn : 0x3041 ≤ c.toNat ∧ c.toNat ≤ 0x309F := by simpa [isHiragana] using h
  obtain ⟨h1, h2, h3, h4⟩ := not_special_of_toNat (c := c) (Or.inr (by omega))
  have hal : ¬ isAsciiAlnum c = true := by
    rw [isAsciiAlnum_iff]; omega
  rw [kanaStep_unmapped h1 h2 h3 h4 (startsKey_false_of_not_katakana (Or.inl (by omega))),
    if_neg hal]

theorem kanaToRomaji_hiragana : ∀ s : List Char, (∀ r ∈ s, isHiragana r = true) →
    kanaToRomaji s = [] := by
  intro s
  induction s with
  | nil => intro _; rfl
  | cons c s ih =>
    intro h
    have hs := ih (fun r hr => h r (List.mem_cons_of_mem _ hr))
    unfold kanaToRomaji at hs ⊢
    rw [kanaLoop_zero_cons, kanaStep_hiragana (h c (by simp)), hs]
    rfl

theorem normalize_nil (U : UnicodeTables) {separator : List Char} (h : separator ≠ []) :
    normalize U separator [] = some [] := by
  unfold normalize
  cases hre : mustCompileSep separator with
  | none =>
    exfalso
    unfold mustCompileSep at hre
    cases hl : separator.getLast? with
    | none => exact h (List.getLast?_eq_none_iff.mp hl)
    | some r => rw [hl] at hre; simp at hre
  | some re => simp [stringsToLower, replaceAllString, replaceAllLoop, stringsTrim]

theorem convert_direct_empty (U : UnicodeTables) (c : Converter) (text : List Char)
    (hm : c.useMorph = false) (hsep : c.separator ≠ []) (h : kanaToRomaji text = []) :
    Convert U c text = some [] := by
  have hS : normalizedSlug U c text = some [] := by
    unfold normalizedSlug
    simp only [hm, h]
    exact normalize_nil U hsep
  rw [convert_eq_of_normalizedSlug U c text [] hS, if_neg]
  · rfl
  · simp [goBytes]
    omega

set_option maxRecDepth 100000 in
theorem smallKatakana_unmapped : ∀ m ∈ smallKatakana,
    (m ≠ 'ッ' ∧ m ≠ 'ー' ∧ m ≠ ' ' ∧ m ≠ '　') ∧ startsKey m = false ∧
      isAsciiAlnum m = false := by
  decide

/-- The step before a code point that is no key and forms no key with the code point
before it is the step at the end of the string. -/
theorem kanaStep_before_dropped {m : Char} (h1 : tableGet [m] = none) (c : Char)
    (a b : List Char) (h2 : a = [] → tableGet [c, m] = none) :
    kanaStep c (a ++ m :: b) = kanaStep c a := by
  unfold kanaStep
  match a with
  | [] => simp [h1, h2 rfl, tableGet_three]; cases b <;> simp [tableGet_three]
  | [d] => simp [tableGet_three]
  | d :: e :: a => simp

theorem kanaLoop_dropped_split {m : Char} (h1 : tableGet [m] = none)
    (hstep : ∀ b, kanaStep m b = ([], 0)) (b : List Char) :
    ∀ (a : List Char) (skip : Nat), skip ≤ a.length →
      (∀ p, a.getLast? = some p → tableGet [p, m] = none) →
      kanaLoop skip (a ++ m :: b) = kanaLoop skip a ++ kanaLoop 0 b := by
  intro a
  induction a with
  | nil =>
    intro skip h _
    have h0 : skip = 0 := by simpa using h
    subst h0
    simp [kanaLoop_zero_cons, hstep, kanaLoop_nil]
  | cons c a ih =>
    intro skip h hlast
    have hlast' : ∀ p, a.getLast? = some p → tableGet [p, m] = none := by
      intro p hp
      apply hlast
      cases a with
      | nil => simp at hp
      | cons d a => simpa [List.getLast?_cons_cons] using hp
    cases skip with
    | zero =>
      have hc : a = [] → tableGet [c, m] = none := by
        intro ha
        apply hlast
        simp [ha]
      simp only [List.cons_append, kanaLoop_zero_cons, kanaStep_before_dropped h1 c a b hc,
        List.append_assoc]
      rw [ih _ (kanaStep_skip_le c a) hlast']
    | succ skip =>
      simp only [List.cons_append, kanaLoop_succ_cons]
      exact ih skip (by simpa using h) hlast'

/-- C20. Only katakana is transliterated: a string of code points of the hiragana block has
the empty romaji, so direct mode returns the empty slug for it (`てすと` gives the empty
slug); and a small katakana that forms no table key with the code point before it
contributes nothing. -/
theorem kanaToRomaji_katakana_only :
    (∀ s : List Char, (∀ r ∈ s, isHiragana r = true) → kanaToRomaji s = []) ∧
    (∀ (U : UnicodeTables) (c : Converter) (text : List Char),
      c.useMorph = false → c.separator ≠ [] → (∀ r ∈ text, isHiragana r = true) →
      Convert U c text = some []) ∧
    (∀ (U : UnicodeTables) (t : List Char → List Token),
      Convert U (NewConverter t [WithMorphAnalysis false]) "てすと".data = some []) ∧
    (∀ (before rest : List Char) (m : Char), m ∈ smallKatakana →
      (∀ p, before.getLast? = some p → tableGet [p, m] = none) →
      kanaToRomaji (before ++ m :: rest) = kanaToRomaji before ++ kanaToRomaji rest) := by
  refine ⟨kanaToRomaji_hiragana, ?_, ?_, ?_⟩
  · intro U c text hm hsep h
    exact convert_direct_empty U c text hm hsep (kanaToRomaji_hiragana text h)
  · intro U t
    exact convert_direct_empty U _ _ rfl (List.cons_ne_nil '-' []) (by decide)
  · intro before rest m hm hlast
    obtain ⟨⟨h1, h2, h3, h4⟩, hkey, hal⟩ := smallKatakana_unmapped m hm
    have hstep : ∀ b, kanaStep m b = ([], 0) := by
      intro b
      rw [kanaStep_unmapped h1 h2 h3 h4 hkey, if_neg (by simp [hal])]
    exact kanaLoop_dropped_split (tableGet_cons_none hkey []) hstep rest before 0
      (Nat.zero_le _) hlast

theorem kanaToRomaji_katakana_only_witness :
    kanaToRomaji "ひらがな".data = [] ∧
    kanaToRomaji ("カ".data ++ 'ャ' :: "ク".data) =
      kanaToRomaji "カ".data ++ kanaToRomaji "ク".data :=
  ⟨kanaToRomaji_katakana_only.1 "ひらがな".data (by decide),
   kanaToRomaji_katakana_only.2.2.2 "カ".data "ク".data 'ャ' (by decide) (by decide)⟩

/-! ## Readings and the shared pipeline -/

theorem romajiParts_append (a b : List Token) :
    romajiParts (a ++ b) = romajiParts a ++ romajiParts b := by
  simp [romajiParts_eq]

theorem romajiParts_empty_reading {token : Token} (h : getReading token = [])
    (tokens : List Token) : romajiParts (token :: tokens) = romajiParts tokens := by
  simp [romajiParts, h]

/-- C17. Reading selection: `getReading` returns feature 7 when the token has more than 7
features and that feature is not `*`, and the surface form in every other case; a token
whose reading is empty adds no fragment, so the slug is the one of the other tokens. -/
theorem getReading_selection :
    (∀ (token : Token) (h : 7 < token.Features.length),
      token.Features[7] ≠ "*".data → getReading token = token.Features[7]) ∧
    (∀ (token : Token),
      (token.Features.length ≤ 7 ∨ token.Features[7]? = some "*".data) →
      getReading token = token.Surface) ∧
    (∀ (a b : List Token) (token : Token), getReading token = [] →
      romajiParts (a ++ token :: b) = romajiParts (a ++ b)) ∧
    (∀ (U : UnicodeTables) (c : Converter) (text : List Char) (a b : List Token)
      (token : Token), c.tokenizer text = a ++ token :: b → getReading token = [] →
      convertWithMorph U c text =
        convertWithMorph U { c with tokenizer := fixedTokenizer (a ++ b) } text) := by
  refine ⟨?_, ?_, ?_, ?_⟩
  · intro token h hne
    unfold getReading
    rw [List.get?_eq_getElem?, List.getElem?_eq_getElem h]
    simp [hne]
  · intro token h
    unfold getReading
    rw [List.get?_eq_getElem?]
    rcases h with h | h
    · rw [List.getElem?_eq_none (by omega)]
    · rw [h]; simp
  · intro a b token h
    rw [romajiParts_append, romajiParts_append, romajiParts_empty_reading h]
  · intro U c text a b token ht h
    unfold convertWithMorph
    simp only [ht, fixedTokenizer]
    rw [romajiParts_append, romajiParts_append, romajiParts_empty_reading h]

theorem getReading_selection_witness :
    (7 < (ipaToken "機能" "キノウ").Features.length ∧
      getReading (ipaToken "機能" "キノウ") = "キノウ".data) ∧
    getReading (ipaToken "ＡＢ" "*") = "ＡＢ".data ∧
    romajiParts ([ipaToken "機能" "キノウ"] ++ ipaToken "" "*" :: [ipaToken "の" "ノ"]) =
      romajiParts ([ipaToken "機能" "キノウ"] ++ [ipaToken "の" "ノ"]) :=
  ⟨⟨by decide, getReading_selection.1 (ipaToken "機能" "キノウ") (by decide) (by decide)⟩,
   getReading_selection.2.1 (ipaToken "ＡＢ" "*") (Or.inr (by decide)),
   getReading_selection.2.2.1 [ipaToken "機能" "キノウ"] [ipaToken "の" "ノ"] (ipaToken "" "*")
     (by decide)⟩

theorem convertWithMorph_eq_sharedPipeline (U : UnicodeTables) (c : Converter)
    (text : List Char) :
    convertWithMorph U c text =
      sharedPipeline U c.maxLength c.separator ((c.tokenizer text).map getReading) := by
  unfold convertWithMorph sharedPipeline
  simp only [← romajiParts_eq]
  cases normalize U c.separator (stringsJoin (romajiParts (c.tokenizer text)) c.separator) with
  | none => rfl
  | some slug =>
    simp only [Option.map_some']
    split_ifs <;> rfl

theorem stringsJoin_single_filter (p sep : List Char) :
    stringsJoin ([p].filter (fun fragment => decide (fragment ≠ []))) sep = p := by
  by_cases h : p = []
  · subst h; simp [stringsJoin, List.intercalate]
  · simp [stringsJoin, h, intercalate_single]

/-- The slug of direct mode, as characters: it has no separator. -/
theorem convert_direct_slug (U : UnicodeTables) (c : Converter) (text : List Char) (sep : Char)
    (hsep : IsSepChar sep) (hc : c.separator = [sep]) :
    ∃ slug : List Char, convertDirect U c text = some (goBytes slug) ∧
      (∀ r ∈ slug, isLowerAlnum r = true) ∧ sep ∉ slug := by
  have hlow := map_toLower_lowerAlnum (kanaToRomaji_alnum text)
  have hascii : ∀ r ∈ (kanaToRomaji text).map Char.toLower, r.toNat < 128 :=
    fun r hr => isLowerAlnum_ascii (hlow r hr)
  have hno : ∀ slug : List Char, (∀ r ∈ slug, isLowerAlnum r = true) → sep ∉ slug :=
    fun slug h hmem => isLowerAlnum_ne_sep hsep (h sep hmem) rfl
  unfold convertDirect
  simp only [hc, normalize_romaji U hsep text]
  split_ifs
  · rw [goBytes_take hascii]
    have h : ∀ r ∈ ((kanaToRomaji text).map Char.toLower).take c.maxLength.toNat,
        isLowerAlnum r = true := fun r hr => hlow r (List.mem_of_mem_take hr)
    exact ⟨_, rfl, h, hno _ h⟩
  · exact ⟨_, rfl, hlow, hno _ hlow⟩

theorem convertDirect_eq_sharedPipeline (U : UnicodeTables) (c : Converter) (text : List Char)
    (sep : Char) (hsep : IsSepChar sep) (hc : c.separator = [sep]) :
    convertDirect U c text = sharedPipeline U c.maxLength c.separator [text] := by
  have hlow := map_toLower_lowerAlnum (kanaToRomaji_alnum text)
  have hascii : ∀ r ∈ (kanaToRomaji text).map Char.toLower, r.toNat < 128 :=
    fun r hr => isLowerAlnum_ascii (hlow r hr)
  unfold convertDirect sharedPipeline
  simp only [List.map_cons, List.map_nil, stringsJoin_single_filter, hc,
    normalize_romaji U hsep text, Option.map_some']
  split_ifs
  · rw [goBytes_take hascii,
      stringsTrimSuffix_goBytes hsep (fun r hr => hascii r (List.mem_of_mem_take hr)),
      if_neg]
    intro e
    exact isLowerAlnum_ne_sep hsep (hlow _ (List.mem_of_mem_take
      (List.mem_of_getLast?_eq_some e))) rfl
  · rfl

/-- C19. The two modes share one pipeline: for a separator that is one ASCII character other
than a letter or digit, direct mode on a text is the pipeline of morphology mode
(transliterate, drop empty fragments, join, normalize, truncate, strip one trailing
separator) on the single reading that is the text; the slug of direct mode does not contain
the separator. -/
theorem convertDirect_shares_pipeline (U : UnicodeTables) (c : Converter) (text : List Char)
    (sep : Char) (hsep : IsSepChar sep) (hc : c.separator = [sep]) :
    convertDirect U c text = sharedPipeline U c.maxLength c.separator [text] ∧
    convertDirect U c text =
      convertWithMorph U { c with tokenizer := fixedTokenizer [surfaceToken text] } text ∧
    (∀ text2 : List Char, convertWithMorph U c text2 =
      sharedPipeline U c.maxLength c.separator ((c.tokenizer text2).map getReading)) ∧
    ∃ slug : List Char, convertDirect U c text = some (goBytes slug) ∧ sep ∉ slug := by
  refine ⟨convertDirect_eq_sharedPipeline U c text sep hsep hc, ?_,
    convertWithMorph_eq_sharedPipeline U c, ?_⟩
  · rw [convertWithMorph_eq_sharedPipeline,
      convertDirect_eq_sharedPipeline U c text sep hsep hc]
    rfl
  · obtain ⟨slug, h1, _, h3⟩ := convert_direct_slug U c text sep hsep hc
    exact ⟨slug, h1, h3⟩

theorem convertDirect_shares_pipeline_witness :
    IsSepChar '-' ∧
    convertDirect asciiTables
        { tokenizer := fixedTokenizer [], maxLength := 4, separator := ['-'],
          useMorph := false } "テスト".data =
      sharedPipeline asciiTables 4 ['-'] ["テスト".data] :=
  ⟨by decide, (convertDirect_shares_pipeline asciiTables
    { tokenizer := fixedTokenizer [], maxLength := 4, separator := ['-'], useMorph := false }
    "テスト".data '-' (by decide) rfl).1⟩

/-- C16. The example of the help text: with maximum length 30 and separator `-`, the
readings `ユーザー`, `カンリ`, `ガメン`, `ノ`, `サクセイ` give `yuza-kanri-gamen-no-sakusei`,
since the romaji of `ユーザー` is `yuza`; the help text announces `yuser-kanri-gamen-no-sakusei`. -/
theorem convert_help_example :
    (∀ (U : UnicodeTables) (text : List Char),
      Convert U (NewConverter
        (fixedTokenizer [ipaToken "ユーザー" "ユーザー", ipaToken "管理" "カンリ",
          ipaToken "画面" "ガメン", ipaToken "の" "ノ", ipaToken "作成" "サクセイ"])
        [WithMaxLength 30]) text =
        some (goBytes "yuza-kanri-gamen-no-sakusei".data)) ∧
    kanaToRomaji "ユーザー".data = "yuza".data ∧
    goBytes "yuza-kanri-gamen-no-sakusei".data ≠ goBytes "yuser-kanri-gamen-no-sakusei".data := by
  refine ⟨?_, by decide, by decide⟩
  intro U text
  exact convert_morph_eval U _ text '-'
    [ipaToken "ユーザー" "ユーザー", ipaToken "管理" "カンリ", ipaToken "画面" "ガメン",
      ipaToken "の" "ノ", ipaToken "作成" "サクセイ"] _
    (by decide) rfl rfl rfl (by decide) (Or.inr (by decide))

/-! ## Separators of any length -/

theorem stripLiteral_eq : ∀ (lit s t : List Char), stripLiteral lit s = some t →
    s = lit ++ t := by
  intro lit
  induction lit with
  | nil => intro s t h; simpa [stripLiteral] using h
  | cons p lit ih =>
    intro s t h
    cases s with
    | nil => simp [stripLiteral] at h
    | cons r s =>
      by_cases hp : p = r
      · subst hp
        simp only [stripLiteral, if_true] at h
        rw [ih s t h]
        rfl
      · simp [stripLiteral, hp] at h

theorem take_length_takeWhile (p : Char → Bool) :
    ∀ s : List Char, s.take (s.takeWhile p).length = s.takeWhile p := by
  intro s
  induction s with
  | nil => rfl
  | cons x t ih =>
    by_cases hx : p x = true
    · simp [List.takeWhile, hx, ih]
    · simp [List.takeWhile, hx]

/-- A match is not empty and consists of code points of the pattern. -/
theorem matchLength_spec {re : SepPattern} {s : List Char} {k : Nat}
    (h : matchLength re s = some k) :
    1 ≤ k ∧ ∀ x ∈ s.take k, x ∈ re.literal ∨ x = re.repeated := by
  unfold matchLength at h
  cases hs : stripLiteral re.literal s with
  | none => simp [hs] at h
  | some t =>
    rw [hs] at h
    cases t with
    | nil => simp at h
    | cons r tail =>
      by_cases hr : r = re.repeated
      · simp only [hr, if_true, Option.some.injEq] at h
        subst h
        refine ⟨by omega, ?_⟩
        intro x hx
        rw [stripLiteral_eq _ _ _ hs, hr, Nat.add_assoc, List.take_append, List.mem_append,
          Nat.add_comm 1, List.take_succ_cons, take_length_takeWhile] at hx
        rcases hx with hx | hx
        · exact Or.inl hx
        · rcases List.mem_cons.mp hx with hx | hx
          · exact Or.inr hx
          · exact Or.inr (by simpa using List.mem_takeWhile_imp hx)
      · simp [hr] at h

/-- The expansion of a template consists of code points of the template and of the match. -/
theorem expandLoop_mem (U : UnicodeTables) (m : List Char) :
    ∀ (template : List Char) (skip : Nat),
      ∀ x ∈ expandLoop U m skip template, x ∈ template ∨ x ∈ m := by
  intro template
  induction template with
  | nil => intro skip x hx; cases skip <;> simp [expandLoop] at hx
  | cons r template ih =>
    intro skip x hx
    have hrec : ∀ k, x ∈ expandLoop U m k template → x ∈ r :: template ∨ x ∈ m := by
      intro k hk
      rcases ih k x hk with h | h
      · exact Or.inl (List.mem_cons_of_mem _ h)
      · exact Or.inr h
    cases skip with
    | succ skip => exact hrec skip hx
    | zero =>
      rw [expandLoop.eq_def] at hx
      simp only [ne_eq, ite_not] at hx
      by_cases hr : r = '$'
      · subst hr
        simp only [if_true] at hx
        split at hx
        · rcases List.mem_cons.mp hx with hx | hx
          · exact Or.inl (by simp [hx])
          · exact hrec _ hx
        · split at hx
          · rcases List.mem_cons.mp hx with hx | hx
            · exact Or.inl (by simp [hx])
            · exact hrec _ hx
          · rcases List.mem_append.mp hx with hx | hx
            · by_cases hn : (‹Int› = 0)
              · rw [if_pos hn] at hx; exact Or.inr hx
              · rw [if_neg hn] at hx; simp at hx
            · exact hrec _ hx
      · simp only [hr, if_false] at hx
        rcases List.mem_cons.mp hx with hx | hx
        · exact Or.inl (by simp [hx])
        · exact hrec _ hx

/-- Replacing matches of a pattern of non-alphanumeric code points by a template of such
code points keeps the letters and digits, in order. -/
theorem replaceAll_filter (U : UnicodeTables) (re : SepPattern) (repl : List Char)
    (hlit : ∀ x ∈ re.literal, isLowerAlnum x = false) (hrep : isLowerAlnum re.repeated = false)
    (hrepl : ∀ x ∈ repl, isLowerAlnum x = false) :
    ∀ (n : Nat) (s : List Char), s.length ≤ n →
      (replaceAllLoop U re repl 0 s).filter isLowerAlnum = s.filter isLowerAlnum := by
  intro n
  induction n with
  | zero =>
    intro s hs
    have : s = [] := List.length_eq_zero.mp (Nat.le_zero.mp hs)
    subst this
    rfl
  | succ n ih =>
    intro s hs
    cases s with
    | nil => rfl
    | cons r src =>
      have hsrc : src.length ≤ n := by simpa using hs
      rw [replaceAllLoop]
      cases hm : matchLength re (r :: src) with
      | none =>
        simp only [List.filter_cons, ih src hsrc]
      | some k =>
        obtain ⟨hk, hmem⟩ := matchLength_spec hm
        have hmatch : ∀ x ∈ (r :: src).take k, isLowerAlnum x = false := by
          intro x hx
          rcases hmem x hx with h | h
          · exact hlit x h
          · rw [h]; exact hrep
        have hexp : (expandLoop U ((r :: src).take k) 0 repl).filter isLowerAlnum = [] := by
          rw [List.filter_eq_nil_iff]
          intro x hx
          rcases expandLoop_mem U _ repl 0 x hx with h | h
          · simp [hrepl x h]
          · simp [hmatch x h]
        have hdrop : ((src.drop (k - 1)).length ≤ n) := by
          rw [List.length_drop]; omega
        simp only [List.filter_append, hexp, List.nil_append]
        rw [replaceAllLoop_drop, ih _ hdrop]
        have hsplit : r :: src = (r :: src).take k ++ src.drop (k - 1) := by
          obtain ⟨j, rfl⟩ : ∃ j, k = j + 1 := ⟨k - 1, by omega⟩
          simp
        have hnil : ((r :: src).take k).filter isLowerAlnum = [] :=
          List.filter_eq_nil_iff.mpr (fun x hx => by simp [hmatch x hx])
        have hfs : (r :: src).filter isLowerAlnum =
            ((r :: src).take k).filter isLowerAlnum ++
              (src.drop (k - 1)).filter isLowerAlnum := by
          rw [← List.filter_append, ← hsplit]
        rw [hfs, hnil, List.nil_append]

theorem isLowerAlnum_false_of_sep {r : Char} (h : IsSepChar r) : isLowerAlnum r = false := by
  rw [Bool.eq_false_iff]
  intro hl
  exact isLowerAlnum_ne_sep h hl rfl

theorem mem_intercalate (sep : List Char) : ∀ (fragments : List (List Char)),
    ∀ x ∈ sep.intercalate fragments, x ∈ sep ∨ ∃ f ∈ fragments, x ∈ f := by
  intro fragments
  induction fragments with
  | nil => intro x hx; simp [List.intercalate] at hx
  | cons p ps ih =>
    intro x hx
    cases ps with
    | nil =>
      rw [intercalate_single] at hx
      exact Or.inr ⟨p, by simp, hx⟩
    | cons q ps =>
      rw [intercalate_cons_cons] at hx
      simp only [List.mem_append] at hx
      rcases hx with (hx | hx) | hx
      · exact Or.inr ⟨p, by simp, hx⟩
      · exact Or.inl hx
      · rcases ih x hx with h | ⟨f, hf, hxf⟩
        · exact Or.inl h
        · exact Or.inr ⟨f, List.mem_cons_of_mem _ hf, hxf⟩

theorem filter_intercalate (sep : List Char) (hsep : ∀ x ∈ sep, isLowerAlnum x = false) :
    ∀ (fragments : List (List Char)), (∀ f ∈ fragments, ∀ r ∈ f, isLowerAlnum r = true) →
      (sep.intercalate fragments).filter isLowerAlnum = fragments.flatten := by
  intro fragments
  induction fragments with
  | nil => intro _; simp [List.intercalate]
  | cons p ps ih =>
    intro h
    have hp : p.filter isLowerAlnum = p := List.filter_eq_self.mpr (h p (by simp))
    cases ps with
    | nil => simp [intercalate_single, hp]
    | cons q ps =>
      have ih' := ih (fun f hf => h f (List.mem_cons_of_mem _ hf))
      rw [intercalate_cons_cons, List.filter_append, List.filter_append, hp, ih',
        List.filter_eq_nil_iff.mpr (fun x hx => by simp [hsep x hx])]
      simp

theorem stringsTrim_disjoint {s cutset : List Char} (h : ∀ r ∈ s, r ∉ cutset) :
    stringsTrim s cutset = s := by
  unfold stringsTrim
  have h1 : s.dropWhile (fun r => decide (r ∈ cutset)) = s := by
    cases s with
    | nil => rfl
    | cons x t => simp [List.dropWhile, h x (by simp)]
  rw [h1, List.rdropWhile_eq_self_iff]
  intro hne
  simpa using h _ (List.getLast_mem hne)

/-- For a separator of two or more non-alphanumeric ASCII characters the filter drops every
character of the separator: the fragments come out concatenated. -/
theorem normalize_long_join (U : UnicodeTables) (separator : List Char)
    (fragments : List (List Char)) (hlen : 2 ≤ separator.length)
    (hsep : ∀ r ∈ separator, IsSepChar r)
    (hfr : ∀ f ∈ fragments, ∀ r ∈ f, isLowerAlnum r = true) :
    normalize U separator (stringsJoin fragments separator) = some fragments.flatten := by
  have hsepl : ∀ x ∈ separator, isLowerAlnum x = false :=
    fun x hx => isLowerAlnum_false_of_sep (hsep x hx)
  have hlow : stringsToLower U (separator.intercalate fragments) =
      separator.intercalate fragments := by
    unfold stringsToLower
    conv_rhs => rw [← List.map_id (separator.intercalate fragments)]
    apply List.map_congr_left
    intro r hr
    rcases mem_intercalate separator fragments r hr with h | ⟨f, hf, hrf⟩
    · exact runeToLower_sep U (hsep r h)
    · exact runeToLower_lower U (hfr f hf r hrf)
  obtain ⟨re, hre, hlit, hrep⟩ : ∃ re, mustCompileSep separator = some re ∧
      (∀ x ∈ re.literal, x ∈ separator) ∧ re.repeated ∈ separator := by
    unfold mustCompileSep
    cases hl : separator.getLast? with
    | none =>
      have := List.getLast?_eq_none_iff.mp hl
      rw [this] at hlen
      simp at hlen
    | some r =>
      exact ⟨_, rfl, fun x hx => List.mem_of_mem_dropLast hx, List.mem_of_getLast?_eq_some hl⟩
  have hfilter : ∀ l : List Char, l.filter (fun r =>
      ('a' ≤ r && r ≤ 'z') || ('0' ≤ r && r ≤ '9') || decide ([r] = separator)) =
      l.filter isLowerAlnum := by
    intro l
    apply List.filter_congr
    intro r _
    have : [r] ≠ separator := by
      intro e
      rw [← e] at hlen
      simp at hlen
    simp [isLowerAlnum, this]
  unfold normalize stringsJoin
  simp only [hlow, hre, replaceAllString, hfilter]
  rw [replaceAll_filter U re separator (fun x hx => hsepl x (hlit x hx)) (hsepl _ hrep) hsepl
    _ _ (Nat.le_refl _), filter_intercalate separator hsepl fragments hfr]
  rw [stringsTrim_disjoint]
  intro r hr hmem
  obtain ⟨f, hf, hrf⟩ := List.mem_flatten.mp hr
  have h1 := hfr f hf r hrf
  rw [hsepl r hmem] at h1
  exact Bool.false_ne_true h1

/-- Morphology mode without truncation for a separator of two or more characters, on given
tokens with the fragments computed. -/
theorem convert_morph_long_eval (U : UnicodeTables) (c : Converter) (text : List Char)
    (separator : List Char) (tokens : List Token) (fragments : List (List Char))
    (hc : c.separator = separator) (hm : c.useMorph = true) (ht : c.tokenizer text = tokens)
    (hf : romajiParts tokens = fragments) (hlen : 2 ≤ separator.length)
    (hsep : ∀ r ∈ separator, IsSepChar r)
    (hfr : ∀ f ∈ fragments, ∀ r ∈ f, isLowerAlnum r = true)
    (hfit : c.maxLength ≤ 0 ∨ ((goBytes fragments.flatten).length : Int) ≤ c.maxLength) :
    Convert U c text = some (goBytes fragments.flatten) := by
  have hS : normalizedSlug U c text = some fragments.flatten := by
    unfold normalizedSlug
    rw [if_pos hm, ht, hf, hc]
    exact normalize_long_join U separator fragments hlen hsep hfr
  rw [convert_eq_of_normalizedSlug U c text _ hS, if_neg]
  omega

/-- C13 as stated fails: with separator `--` the filter compares each character with the
whole separator and drops both hyphens, so the joined fragments do not come back. -/
theorem normalize_long_separator_dropped :
    ¬ ∃ U : UnicodeTables,
      normalize U "--".data (stringsJoin ["tesuto".data, "kinou".data] "--".data) =
        some (stringsJoin ["tesuto".data, "kinou".data] "--".data) := by
  rintro ⟨U, h⟩
  rw [normalize_long_join U "--".data ["tesuto".data, "kinou".data] (by decide) (by decide)
    (by decide)] at h
  exact absurd h (by decide)

/-- C13, amended. The filter keeps the separator only when it is one character: for a
separator of one non-alphanumeric ASCII character the joined non-empty fragments over
`[a-z0-9]` are returned unchanged, and for a separator of two or more such characters they
are returned concatenated, without any separator. Morphology mode with readings `テスト`,
`キノウ` and separator `--` gives `tesutokinou`. -/
theorem normalize_separator_filter :
    (∀ (U : UnicodeTables) (sep : Char) (fragments : List (List Char)), IsSepChar sep →
      (∀ f ∈ fragments, f ≠ [] ∧ ∀ r ∈ f, isLowerAlnum r = true) →
      normalize U [sep] (stringsJoin fragments [sep]) = some (stringsJoin fragments [sep])) ∧
    (∀ (U : UnicodeTables) (separator : List Char) (fragments : List (List Char)),
      2 ≤ separator.length → (∀ r ∈ separator, IsSepChar r) →
      (∀ f ∈ fragments, f ≠ [] ∧ ∀ r ∈ f, isLowerAlnum r = true) →
      normalize U separator (stringsJoin fragments separator) = some fragments.flatten) ∧
    (∀ (U : UnicodeTables) (text : List Char),
      Convert U (NewConverter
        (fixedTokenizer [ipaToken "テスト" "テスト", ipaToken "機能" "キノウ"])
        [WithSeparator "--".data]) text = some (goBytes "tesutokinou".data)) := by
  refine ⟨?_, ?_, ?_⟩
  · intro U sep fragments hsep h
    exact normalize_fixed U hsep (slugShape_join hsep fragments h)
  · intro U separator fragments hlen hsep h
    exact normalize_long_join U separator fragments hlen hsep (fun f hf => (h f hf).2)
  · intro U text
    exact convert_morph_long_eval U _ text "--".data
      [ipaToken "テスト" "テスト", ipaToken "機能" "キノウ"] ["tesuto".data, "kinou".data]
      rfl rfl rfl (by decide) (by decide) (by decide) (by decide) (Or.inr (by decide))

theorem normalize_separator_filter_witness :
    (IsSepChar '_' ∧ 2 ≤ "-_".data.length) ∧
    normalize asciiTables ['_'] (stringsJoin ["ab".data, "9".data] ['_']) =
      some (stringsJoin ["ab".data, "9".data] ['_']) ∧
    normalize asciiTables "-_".data (stringsJoin ["ab".data, "9".data] "-_".data) =
      some ["ab".data, "9".data].flatten :=
  ⟨by decide,
   normalize_separator_filter.1 asciiTables '_' ["ab".data, "9".data] (by decide) (by decide),
   normalize_separator_filter.2.1 asciiTables "-_".data ["ab".data, "9".data] (by decide)
     (by decide) (by decide)⟩

/-- C12 at the empty separator: the pattern is `+`, which does not compile, so `normalize`
and with it `Convert` have no result; with a non-empty separator, regex metacharacters
included, `normalize` returns a string. -/
theorem normalize_empty_separator :
    (∀ (U : UnicodeTables) (s : List Char), normalize U [] s = none) ∧
    (∀ (U : UnicodeTables) (c : Converter) (text : List Char),
      c.separator = [] → Convert U c text = none) ∧
    (∀ (U : UnicodeTables) (separator s : List Char), separator ≠ [] →
      ∃ slug, normalize U separator s = some slug) ∧
    (∀ U : UnicodeTables, normalize U ".".data "a..b".data = some "a.b".data) ∧
    (∀ U : UnicodeTables, normalize U "+".data "a++b".data = some "a+b".data) ∧
    (∀ U : UnicodeTables, normalize U "*".data "a**b".data = some "a*b".data) ∧
    (∀ U : UnicodeTables, normalize U "(".data "a((b".data = some "a(b".data) := by
  refine ⟨fun _ _ => rfl, ?_, fun U separator s h => normalize_isSome U h s,
    fun _ => rfl, fun _ => rfl, fun _ => rfl, fun _ => rfl⟩
  intro U c text hc
  have hn : ∀ s, normalize U c.separator s = none := by
    intro s; rw [hc]; rfl
  unfold Convert convertWithMorph convertDirect
  simp only [hn]
  split_ifs <;> rfl

theorem normalize_empty_separator_witness :
    Convert asciiTables
        { tokenizer := fixedTokenizer [], maxLength := 50, separator := [],
          useMorph := false } "テスト".data = none ∧
    ∃ slug, normalize asciiTables "$1".data "a$1b".data = some slug :=
  ⟨normalize_empty_separator.2.1 asciiTables
    { tokenizer := fixedTokenizer [], maxLength := 50, separator := [], useMorph := false }
    "テスト".data rfl,
   normalize_empty_separator.2.2.1 asciiTables "$1".data "a$1b".data (by decide)⟩

/-- C18 at a combination: the sokuon emits the first letter of the entry of the single code
point after it, also when that code point starts a two-code-point key. For `ッチャ`, `ッティ`
and `ッファ` this is the first letter of what follows; for `ッウィ` it is `u` before `wi`. -/
theorem kanaToRomaji_sokuon_combination :
    (∀ (c d : Char) (v1 v2 rest : List Char), tableGet [c] = some v1 →
      tableGet [c, d] = some v2 →
      kanaToRomaji ('ッ' :: c :: d :: rest) = v1.take 1 ++ v2 ++ kanaToRomaji rest) ∧
    kanaToRomaji "ッウィ".data = "uwi".data ∧ kanaToRomaji "ウィ".data = "wi".data ∧
    kanaToRomaji "ッチャ".data = "ccha".data ∧ kanaToRomaji "ッティ".data = "tti".data ∧
    kanaToRomaji "ッファ".data = "ffa".data := by
  refine ⟨?_, by decide, by decide, by decide, by decide, by decide⟩
  intro c d v1 v2 rest h1 h2
  simp only [kanaToRomaji, kanaLoop_zero_cons, kanaStep_sokuon, kanaStep_two h2,
    kanaLoop_succ_cons, List.head?_cons, Option.some_bind, h1, Option.getD_some,
    List.append_assoc]

theorem kanaToRomaji_sokuon_combination_witness :
    kanaToRomaji ('ッ' :: 'ウ' :: 'ェ' :: "ブ".data) =
      "u".data.take 1 ++ "we".data ++ kanaToRomaji "ブ".data :=
  kanaToRomaji_sokuon_combination.1 'ウ' 'ェ' "u".data "we".data "ブ".data (by decide)
    (by decide)

end Romaji
